import Mathlib

/-!
Verification of the VT Code agent core against its specification.

This file gives a shallow embedding, in Lean 4, of the three subsystems of
the `vtcode` repository that the specification covers:

* the tool execution pipeline (`src/agent/runloop/unified/tool_pipeline.rs`),
* the conversation context trimmer (`src/agent/runloop/context.rs`),
* the transactional patch applicator
  (`vtcode-core/src/tools/editing/patch/applicator/*`).

Pure Rust functions become Lean functions; stateful code (the filesystem, the
journal of the patch applicator) becomes explicit state passing; fallible
code returns `Except`/`Option`.  Machine integers (`usize`, `u8`, `u32`,
`u128`) are modelled as `Nat`; all arithmetic performed by the embedded code
stays far below the wrap-around bounds of the corresponding Rust types
(lengths of in-memory strings and lists), so no explicit `% 2 ^ w` is
needed; where a Rust operation saturates (`saturating_sub`) the Lean
truncated subtraction on `Nat` has exactly the same behaviour.

Rust `&str.len()` counts UTF-8 bytes, so it is rendered as
`String.utf8ByteSize`, not `String.length`.
-/

/-! ## JSON values and tool output decoding

`serde_json::Value` and the accessor methods used by
`process_tool_output` (`tool_pipeline.rs` lines 301-341). JSON numbers are
modelled as integers: `as_i64` on a non-integral or out-of-range number
returns `None` in serde, which the `int` range guard reproduces for the
out-of-range case; non-integral numbers behave like any other
non-integer value (`as_i64 = none`). -/
inductive Json where
  | null : Json
  | bool (b : Bool) : Json
  | num (n : Int) : Json
  | str (s : String) : Json
  | arr (items : List Json) : Json
  | obj (fields : List (String × Json)) : Json
deriving Repr, Inhabited

/-- `Value::get(key)` on an object (serde maps have unique keys, so the first
binding is the binding). On a non-object it returns `None`. -/
def Json.get (v : Json) (key : String) : Option Json :=
  match v with
  | .obj fields => fields.lookup key
  | _ => none

/-- `Value::as_i64`: `Some` exactly on integer numbers that fit in `i64`. -/
def Json.as_i64 : Json → Option Int
  | .num n => if -(2 ^ 63) ≤ n ∧ n < 2 ^ 63 then some n else none
  | _ => none

/-- `Value::as_str`. -/
def Json.as_str : Json → Option String
  | .str s => some s
  | _ => none

/-- `Value::as_bool`. -/
def Json.as_bool : Json → Option Bool
  | .bool b => some b
  | _ => none

/-- `Value::as_array`. -/
def Json.as_array : Json → Option (List Json)
  | .arr items => some items
  | _ => none

/-- `ToolErrorType` (only the `Timeout` variant is constructed by the
pipeline code under study). -/
inductive ToolErrorType where
  | timeout : ToolErrorType
deriving Repr, DecidableEq

/-- `ToolExecutionError::new(tool_name, error_type, message)`. -/
structure ToolExecutionError where
  tool_name : String
  error_type : ToolErrorType
  message : String
deriving Repr, DecidableEq

/-- `ToolExecutionStatus` from `tool_pipeline.rs` lines 31-59.  The opaque
`anyhow::Error` of the `Failure` variant is rendered as its display string. -/
inductive ToolExecutionStatus where
  | success (output : Json) (stdout : Option String) (modified_files : List String)
      (command_success : Bool) (has_more : Bool) : ToolExecutionStatus
  | failure (error : String) : ToolExecutionStatus
  | timeout (error : ToolExecutionError) : ToolExecutionStatus
  | cancelled : ToolExecutionStatus
  | progress (progress : Nat) (message : String) : ToolExecutionStatus
deriving Repr

/-- `process_tool_output` (`tool_pipeline.rs` lines 301-341): decode the raw
JSON value a tool returned into a `Success` status. -/
def process_tool_output (output : Json) : ToolExecutionStatus :=
  let exit_code : Int := ((output.get "exit_code").bind Json.as_i64).getD 0
  let command_success : Bool := exit_code == 0
  let stdout : Option String :=
    (Option.filter (fun s => !s.isEmpty)
      (((output.get "stdout").bind Json.as_str).map String.trim))
  let modified_files : List String :=
    (((output.get "modified_files").bind Json.as_array).map
      (fun files => files.filterMap Json.as_str)).getD []
  let has_more : Bool := ((output.get "has_more").bind Json.as_bool).getD false
  .success output stdout modified_files command_success has_more

/-! Spec-side field extractors, written from the words of the claim, to be
compared with `process_tool_output`. -/

/-- The claim's reading of `command_success`: true exactly when the
`exit_code` field is absent, not an integer, or equal to `0`. -/
def commandSuccessSpec (v : Json) : Prop :=
  v.get "exit_code" = none
    ∨ (∃ j, v.get "exit_code" = some j ∧ j.as_i64 = none)
    ∨ (v.get "exit_code").bind Json.as_i64 = some 0

/-- The claim's reading of `stdout`: the trimmed `stdout` string, dropped
when absent or empty after trimming. -/
def stdoutSpec (v : Json) : Option String :=
  match (v.get "stdout").bind Json.as_str with
  | some s => if s.trim.isEmpty then none else some s.trim
  | none => none

/-- The claim's reading of `modified_files`: the string entries of the
`modified_files` array, defaulting to the empty list. -/
def modifiedFilesSpec (v : Json) : List String :=
  match (v.get "modified_files").bind Json.as_array with
  | some files => files.filterMap Json.as_str
  | none => []

/-- The claim's reading of `has_more`: the `has_more` boolean, defaulting to
`false`. -/
def hasMoreSpec (v : Json) : Bool :=
  match (v.get "has_more").bind Json.as_bool with
  | some b => b
  | none => false

/-- C7: every JSON value decodes to a `Success` status whose fields are the
claim's extractions: `command_success` is true exactly when `exit_code` is
absent, not an integer, or zero; `stdout` is the trimmed `"stdout"` string,
dropped when absent or empty after trimming; `modified_files` is the list of
string entries of `"modified_files"` (default empty); `has_more` is the
`"has_more"` boolean (default false). No JSON shape causes a failure. -/
theorem process_tool_output_success_characterization (v : Json) :
    ∃ cs : Bool,
      process_tool_output v =
        .success v (stdoutSpec v) (modifiedFilesSpec v) cs (hasMoreSpec v)
        ∧ (cs = true ↔ commandSuccessSpec v) := by
  refine ⟨((v.get "exit_code").bind Json.as_i64).getD 0 == 0, ?_, ?_⟩
  · unfold process_tool_output stdoutSpec modifiedFilesSpec hasMoreSpec
    rcases h1 : (v.get "stdout").bind Json.as_str with _ | s <;>
      rcases h2 : (v.get "modified_files").bind Json.as_array with _ | files <;>
      rcases h3 : (v.get "has_more").bind Json.as_bool with _ | b <;>
      simp [h1, h2, h3, Option.filter] <;>
      cases hs : s.trim.isEmpty <;> simp [hs]
  · unfold commandSuccessSpec
    constructor
    · intro hcs
      rcases h : v.get "exit_code" with _ | j
      · exact Or.inl rfl
      · rcases hj : j.as_i64 with _ | n
        · exact Or.inr (Or.inl ⟨j, rfl, hj⟩)
        · simp [h, hj] at hcs
          refine Or.inr (Or.inr ?_)
          simp [hj, hcs]
    · rintro (hc | ⟨j, hj, hnone⟩ | hc)
      · simp [hc]
      · simp [hj, hnone]
      · simp [hc]

/-! ## Tool pipeline: timeout handling

`execute_tool_with_progress` (`tool_pipeline.rs` lines 98-297) races the
tool future against a timeout timer, a warning timer and the cancellation
notify inside `tokio::select!`.  The race itself is scheduler
nondeterminism; its resolution is modelled as an `ExecutionOutcome` value
(the `enum ExecutionOutcome` of the source, lines 201-205), and the code
executed on and after each `break` of the select loop is embedded as a
pure transition on the cancellation token. -/

/-- `std::time::Duration`, viewed at the granularity the embedded code
observes it (`as_secs`). -/
structure Duration where
  secs : Nat
deriving Repr, DecidableEq

/-- `ToolTimeoutCategory`, abstracted to the one attribute the pipeline
reads from it: its `label()` string. -/
structure ToolTimeoutCategory where
  label : String
deriving Repr, DecidableEq

/-- `tokio_util::sync::CancellationToken`, reduced to its observable bit. -/
structure CancellationToken where
  cancelled : Bool
deriving Repr, DecidableEq

/-- `create_timeout_error` (`tool_pipeline.rs` lines 344-366). -/
def create_timeout_error (name : String) (category : ToolTimeoutCategory)
    (timeout : Option Duration) : ToolExecutionStatus :=
  let message : String :=
    match timeout with
    | some limit =>
        "Operation '" ++ name ++ "' exceeded the " ++ category.label ++
          " timeout ceiling (" ++ toString limit.secs ++ "s)"
    | none =>
        "Operation '" ++ name ++ "' exceeded the " ++ category.label ++
          " timeout ceiling"
  .timeout ⟨name, .timeout, message⟩

/-- `enum ExecutionOutcome` (`tool_pipeline.rs` lines 201-205): how the
select race resolved.  `timerFired` is the branch in which the timeout
timer completed before the tool future. -/
inductive ExecutionOutcome where
  | completed (result : Except String Json) : ExecutionOutcome
  | timerFired : ExecutionOutcome
  | cancelSignalled : ExecutionOutcome
deriving Repr

/-- The effect of the select arms and the post-loop `match outcome` of
`execute_tool_with_progress` (`tool_pipeline.rs` lines 207-296): the
timeout arm cancels the token and breaks `Timeout`; the cancel arm cancels
the token and breaks `Cancelled`; a completed tool future is decoded by
`process_tool_output` or wrapped in `Failure`. -/
def resolveExecution (name : String) (category : ToolTimeoutCategory)
    (timeoutDuration : Option Duration) (token : CancellationToken)
    (outcome : ExecutionOutcome) : CancellationToken × ToolExecutionStatus :=
  match outcome with
  | .cancelSignalled => ({ token with cancelled := true }, .cancelled)
  | .timerFired =>
      ({ token with cancelled := true },
        create_timeout_error name category timeoutDuration)
  | .completed (.ok output) => (token, process_tool_output output)
  | .completed (.error e) => (token, .failure e)

/-- C8: whenever the timeout timer (which exists exactly when the category
ceiling is `some d`) fires before the tool future completes, the pipeline
cancels the tool's cancellation token and returns a `Timeout` status whose
message names the tool, the category label, and the ceiling in seconds. -/
theorem timeout_cancels_token_and_names_tool (name : String)
    (category : ToolTimeoutCategory) (d : Duration) (token : CancellationToken) :
    (resolveExecution name category (some d) token .timerFired).1.cancelled = true
      ∧ ∃ err : ToolExecutionError,
          (resolveExecution name category (some d) token .timerFired).2 = .timeout err
          ∧ err.tool_name = name
          ∧ err.message =
              "Operation '" ++ name ++ "' exceeded the " ++ category.label ++
                " timeout ceiling (" ++ toString d.secs ++ "s)" := by
  refine ⟨rfl, ⟨name, .timeout, _⟩, rfl, rfl, rfl⟩

/-! ## Conversation message model

`Message` from `vtcode-core/src/llm/types.rs` (re-exported as
`llm::provider::Message`, the `uni::Message` of `context.rs`).  The three
trimming strategies access `content` exclusively through
`content.as_text()`, a `String`; the `content` field below is that string,
so quantifying over it is quantifying over everything the trimmer can
observe of the content.  `reasoning` and `reasoning_details` are never read
by the trimmer and are omitted. -/

/-- `MessageRole` (`types.rs` lines 194-199). -/
inductive MessageRole where
  | system : MessageRole
  | user : MessageRole
  | assistant : MessageRole
  | tool : MessageRole
deriving Repr, DecidableEq

/-- `MessageRole::as_generic_str` (`types.rs` lines 211-218). -/
def MessageRole.as_generic_str : MessageRole → String
  | .system => "system"
  | .user => "user"
  | .assistant => "assistant"
  | .tool => "tool"

/-- `FunctionCall` (`types.rs` lines 437-440). -/
structure FunctionCall where
  name : String
  arguments : String
deriving Repr, DecidableEq

/-- `ToolCall` (`types.rs` lines 414-419). -/
structure ToolCall where
  id : String
  function : FunctionCall
  call_type : String
  text : Option String
deriving Repr, DecidableEq

/-- `Message` (`types.rs` lines 42-50), with `content` the text that
`content.as_text()` yields. -/
structure Message where
  role : MessageRole
  content : String
  tool_calls : Option (List ToolCall)
  tool_call_id : Option String
  origin_tool : Option String
deriving Repr, DecidableEq

/-- `Message::is_tool_response` (`types.rs` lines 168-170). -/
def Message.is_tool_response (m : Message) : Bool :=
  m.role == .tool

/-- `Message::has_tool_calls` (`types.rs` lines 172-177). -/
def Message.has_tool_calls (m : Message) : Bool :=
  (m.tool_calls.map (fun calls => !calls.isEmpty)).getD false

/-! ## Context trimmer

`src/agent/runloop/context.rs`.  The constants live in
`vtcode-core/src/config/constants.rs`, which is not part of the sources at
hand; their values are fixed here from the spec's configuration surface
(values that the claims do not depend on are chosen arbitrarily). -/

/-- Modelled from the spec: `context::CHAR_PER_TOKEN_APPROX`, the "constant
chars-per-token approximation" of the token estimator.  The spec gives no
numeric value; 4 (the usual chars-per-token rule of thumb) is used.  Every
property proved below only needs it to be positive. -/
def CHAR_PER_TOKEN_APPROX : Nat := 4

/-- Modelled from the spec: `context::MIN_TRIM_RATIO_PERCENT`, the lower
clamp bound of `trim_to_percent`; no value is given in the spec and no
claim depends on it. -/
def MIN_TRIM_RATIO_PERCENT : Nat := 10

/-- Modelled from the spec: `context::MAX_TRIM_RATIO_PERCENT`, the upper
clamp bound of `trim_to_percent`; no value is given in the spec and no
claim depends on it. -/
def MAX_TRIM_RATIO_PERCENT : Nat := 90

/-- Modelled from the spec: `context::MIN_PRESERVE_RECENT_TURNS`, the lower
bound the configuration loader applies to `preserve_recent_turns`.  The
spec's invariant that the aggressive trim keeps a nonempty tail forces it
to be at least 1; the least such value is used. -/
def MIN_PRESERVE_RECENT_TURNS : Nat := 1

/-- Modelled from the spec: `context::AGGRESSIVE_PRESERVE_RECENT_TURNS`,
the cap of the aggressive trim ("aggressive max = configured constant
(e.g. 10)", borne out by scenario S3: 15 messages, removed = 5). -/
def AGGRESSIVE_PRESERVE_RECENT_TURNS : Nat := 10

/-- Rust `usize::clamp(lo, hi)` for `lo ≤ hi`. -/
def rustClamp (x lo hi : Nat) : Nat := max lo (min x hi)

/-- `ContextTrimConfig` (`context.rs` lines 12-25). -/
structure ContextTrimConfig where
  max_tokens : Nat
  trim_to_percent : Nat
  preserve_recent_turns : Nat
  semantic_compression : Bool
  tool_aware_retention : Bool
  max_structural_depth : Nat
  preserve_recent_tools : Nat
deriving Repr, DecidableEq

/-- `ContextTrimConfig::target_tokens` (`context.rs` lines 29-35).  The
`u128` widening cannot overflow for any value a `usize` holds and the
result is at most `max_tokens`, so plain `Nat` arithmetic is exact. -/
def ContextTrimConfig.target_tokens (c : ContextTrimConfig) : Nat :=
  c.max_tokens * rustClamp c.trim_to_percent MIN_TRIM_RATIO_PERCENT MAX_TRIM_RATIO_PERCENT / 100

/-- `approximate_unified_message_tokens` (`context.rs` lines 277-295):
character count of role tag, text, tool calls and tool-call id, in ceiling
division by the chars-per-token constant. -/
def approximate_unified_message_tokens (m : Message) : Nat :=
  let total_chars :=
    m.content.utf8ByteSize + m.role.as_generic_str.utf8ByteSize
      + (match m.tool_calls with
        | some calls =>
            (calls.map (fun c =>
              c.id.utf8ByteSize + c.call_type.utf8ByteSize
                + c.function.name.utf8ByteSize + c.function.arguments.utf8ByteSize)).sum
        | none => 0)
      + (match m.tool_call_id with
        | some i => i.utf8ByteSize
        | none => 0)
  (total_chars + CHAR_PER_TOKEN_APPROX - 1) / CHAR_PER_TOKEN_APPROX

/-- `HashSet::insert` on a set represented as a duplicate-free list. -/
def hashInsert (acc : List Nat) (i : Nat) : List Nat :=
  if i ∈ acc then acc else i :: acc

/-- One retention pass of `prune_unified_tool_responses` (`context.rs`
lines 66-73 and 76-84): walk the index list (passed in descending order,
mirroring `(0..history.len()).rev()`), insert indices whose message
satisfies `pred`, and stop as soon as the set reaches `k` elements. -/
def collectRetained (hist : List Message) (pred : Message → Bool) (k : Nat) :
    List Nat → List Nat → List Nat
  | [], acc => acc
  | i :: rest, acc =>
      if (hist[i]?.map pred).getD false then
        let acc' := hashInsert acc i
        if k ≤ acc'.length then acc'
        else collectRetained hist pred k rest acc'
      else collectRetained hist pred k rest acc

/-- The `tool_retention_indices` set of `prune_unified_tool_responses`
(`context.rs` lines 62-93): when tool-aware retention is on and
`preserve_recent_tools > 0`, collect the most recent tool responses in
reverse index order, top up with the most recent tool-call-bearing
messages, and drop the set entirely when it ends up empty. -/
def tool_retention_indices (hist : List Message) (config : ContextTrimConfig) :
    Option (List Nat) :=
  if config.tool_aware_retention && decide (0 < config.preserve_recent_tools) then
    let descending := (List.range hist.length).reverse
    let retained :=
      collectRetained hist Message.is_tool_response config.preserve_recent_tools descending []
    let retained :=
      if retained.length < config.preserve_recent_tools then
        collectRetained hist Message.has_tool_calls config.preserve_recent_tools descending retained
      else retained
    if retained.isEmpty then none else some retained
  else none

/-- The `retain` closure of `prune_unified_tool_responses` (`context.rs`
lines 101-114), as a predicate on (index, message). -/
def pruneKeep (keep_from : Nat) (retention : Option (List Nat)) (i : Nat)
    (m : Message) : Bool :=
  let contains_tool_payload := m.is_tool_response || m.has_tool_calls
  let keep_due_to_recent_turn := decide (keep_from ≤ i)
  let keep_due_to_tool_retention :=
    (retention.map (fun indices => decide (i ∈ indices))).getD false
  keep_due_to_recent_turn || !contains_tool_payload || keep_due_to_tool_retention

/-- `Vec::retain` with the running index and removal counter of the Rust
closure made explicit: returns the retained elements and the count of
dropped ones. -/
def retainCounting (keep : Nat → Message → Bool) :
    List Message → Nat → Nat → List Message × Nat
  | [], _, removed => ([], removed)
  | m :: rest, i, removed =>
      if keep i m then
        let r := retainCounting keep rest (i + 1) removed
        (m :: r.1, r.2)
      else retainCounting keep rest (i + 1) (removed + 1)

/-- `prune_unified_tool_responses` (`context.rs` lines 52-116), strategy 1:
drop tool-payload messages outside the preserved tail and outside the
retention set.  Returns the new history and the removal count (the Rust
function mutates `history` in place and returns the count). -/
def prune_unified_tool_responses (history : List Message)
    (config : ContextTrimConfig) : List Message × Nat :=
  if history.isEmpty then (history, 0)
  else
    let keep_from := history.length - config.preserve_recent_turns
    let retention := tool_retention_indices history config
    if keep_from = 0 then (history, 0)
    else retainCounting (pruneKeep keep_from retention) history 0 0

/-- `apply_aggressive_trim_unified` (`context.rs` lines 119-142),
strategy 2: keep only the last `clamp(preserve_recent_turns, MIN,
AGGRESSIVE) ⊓ len` messages. -/
def apply_aggressive_trim_unified (history : List Message)
    (config : ContextTrimConfig) : List Message × Nat :=
  if history.isEmpty then (history, 0)
  else
    let keep_turns :=
      min (rustClamp config.preserve_recent_turns MIN_PRESERVE_RECENT_TURNS
        AGGRESSIVE_PRESERVE_RECENT_TURNS) history.length
    let remove := history.length - keep_turns
    if remove = 0 then (history, 0)
    else (history.drop remove, remove)

/-- Insertion into a list sorted by the boolean order `le`. -/
def insertSorted (le : Nat → Nat → Bool) (x : Nat) : List Nat → List Nat
  | [] => [x]
  | y :: ys => if le x y then x :: y :: ys else y :: insertSorted le x ys

/-- `Vec::sort_by` on index lists (insertion sort; the eviction properties
below depend only on the result being a permutation of the input). -/
def sortIndices (le : Nat → Nat → Bool) (l : List Nat) : List Nat :=
  l.foldr (insertSorted le) []

/-- The comparator of both eviction phases of
`enforce_unified_context_window` (`context.rs` lines 176-180 and 195-199):
semantic score ascending, then index ascending. -/
def scoreIndexLe (score : Nat → Nat) (a b : Nat) : Bool :=
  decide (score a < score b) || (decide (score a = score b) && decide (a ≤ b))

/-- One eviction phase of `enforce_unified_context_window` (`context.rs`
lines 182-191 and 201-210): walk the sorted candidates, stop once the
total is within `max_tokens`, record each evicted index and subtract its
tokens (`saturating_sub` is `Nat` subtraction), stop early once the total
falls to `target`. -/
def evictLoop (max_tokens target : Nat) (tok : Nat → Nat) :
    List Nat → List Nat × Nat → List Nat × Nat
  | [], st => st
  | i :: rest, (removal, total) =>
      if total ≤ max_tokens then (removal, total)
      else
        let removal' := hashInsert removal i
        let total' := total - tok i
        if total' ≤ target then (removal', total')
        else evictLoop max_tokens target tok rest (removal', total')

/-- The `tokens_per_message` lookup of `enforce_unified_context_window`
(`context.rs` lines 155-158 and 187). -/
def enforceTok (history : List Message) (i : Nat) : Nat :=
  (history.map approximate_unified_message_tokens).getD i 0

/-- The semantic-score lookup used by both eviction comparators. -/
def enforceScore (semantic_scores : List Nat) (i : Nat) : Nat :=
  semantic_scores.getD i 0

/-- Phase A of `enforce_unified_context_window` (`context.rs` lines
174-191): sort `[0, preserve_boundary)` by (score, index) and evict. -/
def enforcePhaseA (history : List Message) (config : ContextTrimConfig)
    (semantic_scores : List Nat) : List Nat × Nat :=
  evictLoop config.max_tokens config.target_tokens (enforceTok history)
    (sortIndices (scoreIndexLe (enforceScore semantic_scores))
      (List.range (history.length - config.preserve_recent_turns)))
    ([], (history.map approximate_unified_message_tokens).sum)

/-- The `removal_set` accumulated by the two eviction phases of
`enforce_unified_context_window` (`context.rs` lines 168-211): phase A over
`[0, preserve_boundary)`, then phase B (when still over budget and a
non-tail message exists) over `[preserve_boundary, last_index)` — the very
last message is in neither range. -/
def enforceRemovalSet (history : List Message) (config : ContextTrimConfig)
    (semantic_scores : List Nat) : List Nat :=
  if config.max_tokens < (enforcePhaseA history config semantic_scores).2
      ∧ 0 < history.length - 1 then
    (evictLoop config.max_tokens config.target_tokens (enforceTok history)
      (sortIndices (scoreIndexLe (enforceScore semantic_scores))
        (List.range' (history.length - config.preserve_recent_turns)
          (history.length - 1 - (history.length - config.preserve_recent_turns))))
      (enforcePhaseA history config semantic_scores)).1
  else (enforcePhaseA history config semantic_scores).1

/-- `enforce_unified_context_window` (`context.rs` lines 145-229),
strategy 3.  `semantic_scores` stands for the result of
`compute_semantic_scores`, whose code-analyzer collaborator is external to
the core (with no analyzer it is all zeroes); the theorems below hold for
every score vector.  Returns the new history and `removed_messages`. -/
def enforce_unified_context_window (history : List Message)
    (config : ContextTrimConfig) (semantic_scores : List Nat) :
    List Message × Nat :=
  if history.isEmpty then (history, 0)
  else if (history.map approximate_unified_message_tokens).sum ≤ config.max_tokens then
    (history, 0)
  else if history.length = 1 then (history, 0)
  else if (enforceRemovalSet history config semantic_scores).isEmpty then (history, 0)
  else
    retainCounting
      (fun i _ => !(decide (i ∈ enforceRemovalSet history config semantic_scores)))
      history 0 0

/-! ## Trimmer lemmas -/

/-- `retainCounting` is the indexed filter: the retained elements are the
second components of the enumerated pairs satisfying `keep`, and the
counter counts the dropped ones. -/
theorem retainCounting_eq (keep : Nat → Message → Bool) (l : List Message) :
    ∀ i r, retainCounting keep l i r =
      (((l.enumFrom i).filter (fun p => keep p.1 p.2)).map Prod.snd,
        r + ((l.enumFrom i).filter (fun p => !keep p.1 p.2)).length) := by
  induction l with
  | nil => intro i r; simp [retainCounting]
  | cons m rest ih =>
      intro i r
      simp only [retainCounting, List.enumFrom_cons, List.filter_cons]
      by_cases hk : keep i m
      · simp [hk, ih (i + 1) r]
      · simp only [hk, Bool.false_eq_true, if_false, Bool.not_false, if_true, ih (i + 1) (r + 1),
          List.length_cons]
        exact Prod.ext rfl (by omega)

/-- The retained sequence is a sublist of the original history (surviving
messages keep their relative order). -/
theorem filter_enumFrom_sublist (P : Nat × Message → Bool) (l : List Message) (i : Nat) :
    (((l.enumFrom i).filter P).map Prod.snd).Sublist l := by
  have h := (List.filter_sublist (p := P) (l.enumFrom i)).map Prod.snd
  rwa [List.enumFrom_map_snd] at h

/-- If the predicate holds at the final position, the indexed filter keeps
the last element last. -/
theorem filter_enumFrom_getLast (P : Nat × Message → Bool) (xs : List Message) (a : Message)
    (hP : P (xs.length, a) = true) :
    ((((xs ++ [a]).enumFrom 0).filter P).map Prod.snd).getLast? = some a := by
  rw [List.enumFrom_append, List.filter_append, List.map_append]
  simp only [List.enumFrom_cons, List.enumFrom_nil, List.filter_cons, Nat.zero_add, hP,
    if_true, List.filter_nil, List.map_cons, List.map_nil]
  exact List.getLast?_concat _

/-- Membership in `hashInsert`. -/
theorem hashInsert_mem (acc : List Nat) (i j : Nat) :
    j ∈ hashInsert acc i ↔ j = i ∨ j ∈ acc := by
  unfold hashInsert
  by_cases h : i ∈ acc
  · rw [if_pos h]
    constructor
    · exact Or.inr
    · rintro (rfl | hj)
      · exact h
      · exact hj
  · rw [if_neg h, List.mem_cons]

/-- `hashInsert` never removes members. -/
theorem hashInsert_superset (acc : List Nat) (i j : Nat) (h : j ∈ acc) :
    j ∈ hashInsert acc i :=
  (hashInsert_mem acc i j).2 (Or.inr h)

/-- `hashInsert` contains the inserted element. -/
theorem hashInsert_self (acc : List Nat) (i : Nat) : i ∈ hashInsert acc i :=
  (hashInsert_mem acc i i).2 (Or.inl rfl)

/-- Every index in the eviction result came from the initial set or the
candidate list. -/
theorem evictLoop_mem (m t : Nat) (tok : Nat → Nat) :
    ∀ (cands : List Nat) (removal : List Nat) (total : Nat) (j : Nat),
      j ∈ (evictLoop m t tok cands (removal, total)).1 → j ∈ removal ∨ j ∈ cands := by
  intro cands
  induction cands with
  | nil =>
      intro removal total j h
      exact Or.inl (by simpa [evictLoop] using h)
  | cons i rest ih =>
      intro removal total j h
      simp only [evictLoop] at h
      by_cases h1 : total ≤ m
      · rw [if_pos h1] at h
        exact Or.inl h
      · rw [if_neg h1] at h
        by_cases h2 : total - tok i ≤ t
        · rw [if_pos h2] at h
          rcases (hashInsert_mem _ _ _).1 h with rfl | hj
          · exact Or.inr (List.mem_cons_self _ _)
          · exact Or.inl hj
        · rw [if_neg h2] at h
          rcases ih _ _ j h with hj | hj
          · rcases (hashInsert_mem _ _ _).1 hj with rfl | hj2
            · exact Or.inr (List.mem_cons_self _ _)
            · exact Or.inl hj2
          · exact Or.inr (List.mem_cons.2 (Or.inr hj))

/-- The eviction loop never removes an already-recorded index. -/
theorem evictLoop_superset (m t : Nat) (tok : Nat → Nat) :
    ∀ (cands : List Nat) (removal : List Nat) (total : Nat) (j : Nat),
      j ∈ removal → j ∈ (evictLoop m t tok cands (removal, total)).1 := by
  intro cands
  induction cands with
  | nil =>
      intro removal total j h
      simpa [evictLoop] using h
  | cons i rest ih =>
      intro removal total j h
      simp only [evictLoop]
      by_cases h1 : total ≤ m
      · rw [if_pos h1]; exact h
      · rw [if_neg h1]
        by_cases h2 : total - tok i ≤ t
        · rw [if_pos h2]; exact hashInsert_superset _ _ _ h
        · rw [if_neg h2]; exact ih _ _ j (hashInsert_superset _ _ _ h)

/-- With a nonempty candidate list and the budget exceeded, the eviction
loop records at least one index. -/
theorem evictLoop_ne_nil (m t : Nat) (tok : Nat → Nat) (i : Nat) (rest : List Nat)
    (removal : List Nat) (total : Nat) (h : m < total) :
    (evictLoop m t tok (i :: rest) (removal, total)).1 ≠ [] := by
  simp only [evictLoop]
  rw [if_neg (by omega)]
  by_cases h2 : total - tok i ≤ t
  · rw [if_pos h2]
    exact List.ne_nil_of_mem (hashInsert_self removal i)
  · rw [if_neg h2]
    exact List.ne_nil_of_mem (evictLoop_superset m t tok rest _ _ i (hashInsert_self removal i))

/-- `insertSorted` adds exactly one element. -/
theorem insertSorted_length (le : Nat → Nat → Bool) (x : Nat) :
    ∀ l : List Nat, (insertSorted le x l).length = l.length + 1 := by
  intro l
  induction l with
  | nil => rfl
  | cons y ys ih =>
      simp only [insertSorted]
      by_cases h : le x y
      · rw [if_pos h]; rfl
      · rw [if_neg h]; simp [ih]

/-- Membership in `insertSorted`. -/
theorem insertSorted_mem (le : Nat → Nat → Bool) (x j : Nat) :
    ∀ l : List Nat, j ∈ insertSorted le x l ↔ j = x ∨ j ∈ l := by
  intro l
  induction l with
  | nil => simp [insertSorted]
  | cons y ys ih =>
      simp only [insertSorted]
      by_cases h : le x y
      · rw [if_pos h]; simp [List.mem_cons]
      · rw [if_neg h]
        simp only [List.mem_cons, ih]
        tauto

/-- Sorting preserves length. -/
theorem sortIndices_length (le : Nat → Nat → Bool) :
    ∀ l : List Nat, (sortIndices le l).length = l.length := by
  intro l
  induction l with
  | nil => rfl
  | cons y ys ih =>
      simp only [sortIndices, List.foldr_cons] at ih ⊢
      rw [insertSorted_length, ih, List.length_cons]

/-- Sorting preserves membership. -/
theorem sortIndices_mem (le : Nat → Nat → Bool) (j : Nat) :
    ∀ l : List Nat, j ∈ sortIndices le l ↔ j ∈ l := by
  intro l
  induction l with
  | nil => simp [sortIndices]
  | cons y ys ih =>
      simp only [sortIndices, List.foldr_cons] at ih ⊢
      rw [insertSorted_mem]
      simp [List.mem_cons, ih]

/-- The spec's `tokens(·)`: total estimated token count of a history. -/
def tokensOf (history : List Message) : Nat :=
  (history.map approximate_unified_message_tokens).sum

/-- Every message estimates to at least one token (its role tag alone is a
nonempty string). -/
theorem one_le_approximate_tokens (m : Message) :
    1 ≤ approximate_unified_message_tokens m := by
  unfold approximate_unified_message_tokens
  have hrole : 1 ≤ m.role.as_generic_str.utf8ByteSize := by
    cases m.role <;> decide
  rw [Nat.one_le_div_iff (by decide : 0 < CHAR_PER_TOKEN_APPROX)]
  simp only [CHAR_PER_TOKEN_APPROX] at hrole ⊢
  omega


/-- Pair-shaped restatement of `evictLoop_mem`. -/
theorem evictLoop_mem_pair (m t : Nat) (tok : Nat → Nat) (cands : List Nat)
    (st : List Nat × Nat) (j : Nat) (h : j ∈ (evictLoop m t tok cands st).1) :
    j ∈ st.1 ∨ j ∈ cands := by
  obtain ⟨removal, total⟩ := st
  exact evictLoop_mem m t tok cands removal total j h

/-- Pair-shaped restatement of `evictLoop_superset`. -/
theorem evictLoop_superset_pair (m t : Nat) (tok : Nat → Nat) (cands : List Nat)
    (st : List Nat × Nat) (j : Nat) (h : j ∈ st.1) :
    j ∈ (evictLoop m t tok cands st).1 := by
  obtain ⟨removal, total⟩ := st
  exact evictLoop_superset m t tok cands removal total j h

/-- Pair-shaped restatement of `evictLoop_ne_nil`. -/
theorem evictLoop_ne_nil_pair (m t : Nat) (tok : Nat → Nat) (i : Nat) (rest : List Nat)
    (st : List Nat × Nat) (h : m < st.2) :
    (evictLoop m t tok (i :: rest) st).1 ≠ [] := by
  obtain ⟨removal, total⟩ := st
  exact evictLoop_ne_nil m t tok i rest removal total h

/-- A sorted index list over a nonempty range is nonempty. -/
theorem sortIndices_ne_nil (le : Nat → Nat → Bool) (l : List Nat) (h : l ≠ []) :
    sortIndices le l ≠ [] := by
  intro hc
  have := sortIndices_length le l
  rw [hc] at this
  simp only [List.length_nil] at this
  exact h (List.length_eq_zero.1 this.symm)

/-- Indices recorded by the eviction phases lie before the preserve
boundary or before the last index. -/
theorem enforceRemovalSet_mem (history : List Message) (config : ContextTrimConfig)
    (semantic_scores : List Nat) (i : Nat)
    (hi : i ∈ enforceRemovalSet history config semantic_scores) :
    i < history.length - config.preserve_recent_turns ∨ i < history.length - 1 := by
  unfold enforceRemovalSet at hi
  by_cases hcond : config.max_tokens < (enforcePhaseA history config semantic_scores).2
      ∧ 0 < history.length - 1
  · rw [if_pos hcond] at hi
    rcases evictLoop_mem_pair _ _ _ _ _ _ hi with hj | hj
    · rcases evictLoop_mem_pair _ _ _ _ _ _ hj with hj2 | hj2
      · simp at hj2
      · rw [sortIndices_mem, List.mem_range] at hj2
        exact Or.inl hj2
    · rw [sortIndices_mem, List.mem_range'_1] at hj
      omega
  · rw [if_neg hcond] at hi
    rcases evictLoop_mem_pair _ _ _ _ _ _ hi with hj | hj
    · simp at hj
    · rw [sortIndices_mem, List.mem_range] at hj
      exact Or.inl hj

/-- When the history is over budget and has a non-tail message, the
eviction phases record at least one index. -/
theorem enforceRemovalSet_ne_nil (history : List Message) (config : ContextTrimConfig)
    (semantic_scores : List Nat)
    (hover : config.max_tokens < tokensOf history) (h2 : 2 ≤ history.length) :
    enforceRemovalSet history config semantic_scores ≠ [] := by
  unfold enforceRemovalSet
  by_cases hpb : 0 < history.length - config.preserve_recent_turns
  · have hA : (enforcePhaseA history config semantic_scores).1 ≠ [] := by
      unfold enforcePhaseA
      rcases hc : sortIndices (scoreIndexLe (enforceScore semantic_scores))
          (List.range (history.length - config.preserve_recent_turns)) with _ | ⟨i, rest⟩
      · exact absurd hc (sortIndices_ne_nil _ _ (by
          rw [← List.length_pos, List.length_range]
          omega))
      · exact evictLoop_ne_nil _ _ _ _ _ _ _ hover
    obtain ⟨j, hj⟩ := List.exists_mem_of_ne_nil _ hA
    by_cases hcond : config.max_tokens < (enforcePhaseA history config semantic_scores).2
        ∧ 0 < history.length - 1
    · rw [if_pos hcond]
      exact List.ne_nil_of_mem (evictLoop_superset_pair _ _ _ _ _ j hj)
    · rw [if_neg hcond]
      exact hA
  · have hzero : history.length - config.preserve_recent_turns = 0 := by omega
    have hA : enforcePhaseA history config semantic_scores =
        ([], tokensOf history) := by
      unfold enforcePhaseA
      rw [hzero]
      simp [sortIndices, evictLoop, tokensOf]
    rw [hA]
    rw [if_pos (⟨hover, by omega⟩ :
      config.max_tokens < (([], tokensOf history) : List Nat × Nat).2
        ∧ 0 < history.length - 1)]
    rcases hc : sortIndices (scoreIndexLe (enforceScore semantic_scores))
        (List.range' (history.length - config.preserve_recent_turns)
          (history.length - 1 - (history.length - config.preserve_recent_turns)))
        with _ | ⟨i, rest⟩
    · exact absurd hc (sortIndices_ne_nil _ _ (by
        rw [← List.length_pos, List.length_range']
        omega))
    · exact evictLoop_ne_nil _ _ _ _ _ _ _ hover

/-- Splitting the token total of a history into kept and dropped parts of
an indexed filter. -/
theorem tokensOf_filter_split (P : Nat × Message → Bool) (l : List Message) :
    tokensOf (((l.enumFrom 0).filter P).map Prod.snd)
      + tokensOf (((l.enumFrom 0).filter (fun p => !P p)).map Prod.snd)
      = tokensOf l := by
  have h2 := (List.filter_append_perm P (l.enumFrom 0)).map Prod.snd
  rw [List.map_append, List.enumFrom_map_snd] at h2
  have h3 := (h2.map approximate_unified_message_tokens).sum_eq
  unfold tokensOf
  rw [← h3, List.map_append, List.sum_append]

/-- Every valid index occurs in the enumeration. -/
theorem exists_mem_enumFrom (l : List Message) :
    ∀ n i, i < l.length → ∃ m : Message, (n + i, m) ∈ l.enumFrom n := by
  induction l with
  | nil => intro n i h; simp at h
  | cons hd tl ih =>
      intro n i h
      cases i with
      | zero => exact ⟨hd, by simp [List.enumFrom_cons]⟩
      | succ k =>
          obtain ⟨m, hm⟩ := ih (n + 1) k (by simpa using h)
          exact ⟨m, by
            rw [List.enumFrom_cons]
            exact List.mem_cons.2 (Or.inr (by
              have : n + (k + 1) = n + 1 + k := by omega
              rw [this]
              exact hm))⟩

/-- The claim's tool-retention membership test: `i` is in the retention set
when tool-aware retention produced one. -/
def inRetention (history : List Message) (config : ContextTrimConfig) (i : Nat) : Bool :=
  ((tool_retention_indices history config).map (fun indices => decide (i ∈ indices))).getD false

/-- The claim's removal predicate for strategy 1: the message carries a
tool payload, is not within the last `preserve_recent_turns` positions,
and is not in the tool-retention set. -/
def pruneRemovesSpec (history : List Message) (config : ContextTrimConfig)
    (i : Nat) (m : Message) : Bool :=
  (m.is_tool_response || m.has_tool_calls)
    && !(decide (history.length - config.preserve_recent_turns ≤ i))
    && !(inRetention history config i)

/-- Keeping is the negation of the claim's removal predicate. -/
theorem pruneKeep_eq_not_removes (history : List Message) (config : ContextTrimConfig)
    (i : Nat) (m : Message) :
    pruneKeep (history.length - config.preserve_recent_turns)
        (tool_retention_indices history config) i m
      = !(pruneRemovesSpec history config i m) := by
  unfold pruneKeep pruneRemovesSpec inRetention
  cases h1 : (m.is_tool_response || m.has_tool_calls) <;>
    cases h2 : (decide (history.length - config.preserve_recent_turns ≤ i)) <;>
    cases h3 : (((tool_retention_indices history config).map
      (fun indices => decide (i ∈ indices))).getD false) <;>
    simp [h1, h2, h3]

/-- C6: strategy 1 removes exactly the messages that carry a tool payload,
sit outside the last `preserve_recent_turns` positions, and are outside the
tool-retention set (computed, when tool-aware retention is enabled, as the
most recent `preserve_recent_tools` tool responses topped up with the most
recent tool-call-bearing messages, in reverse index order); every plain
message survives, survivors keep their relative order, and the returned
count is the number of messages removed. -/
theorem prune_tool_responses_characterization (history : List Message)
    (config : ContextTrimConfig) :
    (prune_unified_tool_responses history config).1 =
        ((history.enumFrom 0).filter
          (fun p => !(pruneRemovesSpec history config p.1 p.2))).map Prod.snd
      ∧ (prune_unified_tool_responses history config).2 =
          history.length - (prune_unified_tool_responses history config).1.length
      ∧ ((prune_unified_tool_responses history config).1).Sublist history
      ∧ ∀ p ∈ history.enumFrom 0,
          (p.2.is_tool_response || p.2.has_tool_calls) = false →
            p.2 ∈ (prune_unified_tool_responses history config).1 := by
  have hmain : (prune_unified_tool_responses history config).1 =
      ((history.enumFrom 0).filter
        (fun p => !(pruneRemovesSpec history config p.1 p.2))).map Prod.snd
      ∧ (prune_unified_tool_responses history config).2 =
        history.length - (prune_unified_tool_responses history config).1.length := by
    unfold prune_unified_tool_responses
    by_cases hE : history.isEmpty = true
    · rw [if_pos hE]
      have : history = [] := List.isEmpty_iff.1 hE
      subst this
      simp
    · rw [if_neg hE]
      by_cases hkf : history.length - config.preserve_recent_turns = 0
      · rw [if_pos hkf]
        constructor
        · have hkeep : ∀ p ∈ history.enumFrom 0,
              (!(pruneRemovesSpec history config p.1 p.2)) = true := by
            intro p _
            unfold pruneRemovesSpec
            rw [hkf]
            simp
          rw [List.filter_eq_self.2 hkeep, List.enumFrom_map_snd]
        · simp
      · rw [if_neg hkf]
        rw [retainCounting_eq]
        dsimp only
        constructor
        · congr 1
          apply List.filter_congr
          intro p _
          rw [pruneKeep_eq_not_removes]
        · have hperm := (List.filter_append_perm
            (fun p => pruneKeep (history.length - config.preserve_recent_turns)
              (tool_retention_indices history config) p.1 p.2)
            (history.enumFrom 0)).length_eq
          rw [List.length_append] at hperm
          have hlen : (history.enumFrom 0).length = history.length :=
            List.enumFrom_length
          simp only [List.length_map]
          omega
  refine ⟨hmain.1, hmain.2, ?_, ?_⟩
  · rw [hmain.1]
    exact filter_enumFrom_sublist _ _ _
  · intro p hp hplain
    rw [hmain.1]
    apply List.mem_map_of_mem Prod.snd
    apply List.mem_filter.2
    refine ⟨hp, ?_⟩
    unfold pruneRemovesSpec
    rw [hplain]
    simp

/-- Dropping a proper prefix does not change the last element. -/
theorem getLast?_drop_of_lt (l : List Message) (n : Nat) (h : n < l.length) :
    (l.drop n).getLast? = l.getLast? := by
  rw [List.getLast?_eq_getElem?, List.getLast?_eq_getElem?, List.getElem?_drop,
    List.length_drop]
  congr 1
  omega

/-- C4 (amended): given `preserve_recent_turns ≥ 1` — which the
configuration loader guarantees by lower-bounding it with
`MIN_PRESERVE_RECENT_TURNS` — none of the three trimming strategies removes
the last message of the history. -/
theorem last_message_never_evicted (history : List Message) (config : ContextTrimConfig)
    (hp : 1 ≤ config.preserve_recent_turns) :
    (prune_unified_tool_responses history config).1.getLast? = history.getLast?
      ∧ (apply_aggressive_trim_unified history config).1.getLast? = history.getLast?
      ∧ ∀ semantic_scores,
          (enforce_unified_context_window history config semantic_scores).1.getLast?
            = history.getLast? := by
  rcases List.eq_nil_or_concat history with rfl | ⟨xs, a, rfl⟩
  · refine ⟨?_, ?_, ?_⟩
    · rfl
    · rfl
    · intro s; rfl
  · rw [List.concat_eq_append]
    have hlen : (xs ++ [a]).length = xs.length + 1 := by simp
    have hlast : (xs ++ [a]).getLast? = some a := List.getLast?_concat _
    have hne : (xs ++ [a]).isEmpty = false := by simp
    refine ⟨?_, ?_, ?_⟩
    · unfold prune_unified_tool_responses
      rw [hne]
      simp only [Bool.false_eq_true, if_false]
      by_cases hkf : (xs ++ [a]).length - config.preserve_recent_turns = 0
      · rw [if_pos hkf, hlast]
      · rw [if_neg hkf, retainCounting_eq]
        dsimp only
        rw [hlast]
        apply filter_enumFrom_getLast
        unfold pruneKeep
        have : decide ((xs ++ [a]).length - config.preserve_recent_turns ≤ xs.length)
            = true := by
          rw [decide_eq_true_eq]
          omega
        rw [this]
        simp
    · unfold apply_aggressive_trim_unified
      rw [hne]
      simp only [Bool.false_eq_true, if_false]
      by_cases hrm : (xs ++ [a]).length
          - min (rustClamp config.preserve_recent_turns MIN_PRESERVE_RECENT_TURNS
              AGGRESSIVE_PRESERVE_RECENT_TURNS) (xs ++ [a]).length = 0
      · rw [if_pos hrm, hlast]
      · rw [if_neg hrm]
        rw [getLast?_drop_of_lt _ _ ?_, hlast]
        have hcl : 1 ≤ rustClamp config.preserve_recent_turns MIN_PRESERVE_RECENT_TURNS
            AGGRESSIVE_PRESERVE_RECENT_TURNS := by
          unfold rustClamp MIN_PRESERVE_RECENT_TURNS
          omega
        omega
    · intro semantic_scores
      unfold enforce_unified_context_window
      rw [hne]
      simp only [Bool.false_eq_true, if_false]
      by_cases hbudget : ((xs ++ [a]).map approximate_unified_message_tokens).sum
          ≤ config.max_tokens
      · rw [if_pos hbudget, hlast]
      · rw [if_neg hbudget]
        by_cases hone : (xs ++ [a]).length = 1
        · rw [if_pos hone, hlast]
        · rw [if_neg hone]
          by_cases hrem : (enforceRemovalSet (xs ++ [a]) config semantic_scores).isEmpty
            = true
          · rw [if_pos hrem, hlast]
          · rw [if_neg hrem, retainCounting_eq]
            dsimp only
            rw [hlast]
            apply filter_enumFrom_getLast
            have hnotin : xs.length ∉ enforceRemovalSet (xs ++ [a]) config semantic_scores := by
              intro hin
              rcases enforceRemovalSet_mem _ _ _ _ hin with hlt | hlt <;>
                · rw [hlen] at hlt
                  omega
            simp [hnotin]

/-- C5: context-window enforcement never increases the token estimate,
strictly decreases it whenever the history is over budget and contains a
non-tail message, and leaves a within-budget history unchanged. -/
theorem enforce_context_window_token_monotonicity (history : List Message)
    (config : ContextTrimConfig) (semantic_scores : List Nat) :
    tokensOf (enforce_unified_context_window history config semantic_scores).1
        ≤ tokensOf history
      ∧ (config.max_tokens < tokensOf history → 2 ≤ history.length →
          tokensOf (enforce_unified_context_window history config semantic_scores).1
            < tokensOf history)
      ∧ (tokensOf history ≤ config.max_tokens →
          (enforce_unified_context_window history config semantic_scores).1 = history) := by
  have hsum : ((history.map approximate_unified_message_tokens).sum) = tokensOf history := rfl
  refine ⟨?_, ?_, ?_⟩
  · unfold enforce_unified_context_window
    by_cases hE : history.isEmpty = true
    · rw [if_pos hE]
    · rw [if_neg hE]
      by_cases hbudget : (history.map approximate_unified_message_tokens).sum
          ≤ config.max_tokens
      · rw [if_pos hbudget]
      · rw [if_neg hbudget]
        by_cases hone : history.length = 1
        · rw [if_pos hone]
        · rw [if_neg hone]
          by_cases hrem : (enforceRemovalSet history config semantic_scores).isEmpty = true
          · rw [if_pos hrem]
          · rw [if_neg hrem, retainCounting_eq]
            dsimp only
            have hsub := filter_enumFrom_sublist
              (fun p => !(decide (p.1 ∈ enforceRemovalSet history config semantic_scores)))
              history 0
            unfold tokensOf
            exact List.Sublist.sum_le_sum
              (hsub.map approximate_unified_message_tokens) (by intro x _; omega)
  · intro hover h2
    have hE : history.isEmpty = false := by
      cases history
      · simp at h2
      · rfl
    have hone : ¬history.length = 1 := by omega
    have hrem : (enforceRemovalSet history config semantic_scores).isEmpty = false := by
      rcases hc : enforceRemovalSet history config semantic_scores with _ | ⟨i, rest⟩
      · exact absurd hc (enforceRemovalSet_ne_nil history config semantic_scores hover h2)
      · rfl
    unfold enforce_unified_context_window
    rw [hE]
    simp only [Bool.false_eq_true, if_false]
    rw [if_neg (by rw [hsum]; omega), if_neg hone, hrem]
    simp only [Bool.false_eq_true, if_false]
    rw [retainCounting_eq]
    dsimp only
    obtain ⟨i, hi⟩ := List.exists_mem_of_ne_nil _
      (enforceRemovalSet_ne_nil history config semantic_scores hover h2)
    have hilt : i < history.length := by
      rcases enforceRemovalSet_mem _ _ _ _ hi with hlt | hlt <;> omega
    obtain ⟨m, hm⟩ := exists_mem_enumFrom history 0 i hilt
    rw [Nat.zero_add] at hm
    have hsplit := tokensOf_filter_split
      (fun p => !(decide (p.1 ∈ enforceRemovalSet history config semantic_scores))) history
    have hdropped : m ∈ ((history.enumFrom 0).filter
        (fun p => !(!(decide (p.1 ∈ enforceRemovalSet history config semantic_scores))))).map
          Prod.snd := by
      have hpair : ((i, m) : Nat × Message) ∈ (history.enumFrom 0).filter
          (fun p => !(!(decide (p.1 ∈ enforceRemovalSet history config semantic_scores)))) :=
        List.mem_filter.2 ⟨hm, by simp [hi]⟩
      exact List.mem_map_of_mem Prod.snd hpair
    have hpos : 1 ≤ tokensOf (((history.enumFrom 0).filter
        (fun p => !(!(decide (p.1 ∈ enforceRemovalSet history config semantic_scores))))).map
          Prod.snd) := by
      rcases hd : ((history.enumFrom 0).filter
          (fun p => !(!(decide (p.1 ∈ enforceRemovalSet history config semantic_scores))))).map
            Prod.snd with _ | ⟨x, rest⟩
      · rw [hd] at hdropped
        simp at hdropped
      · unfold tokensOf
        rw [hd]
        have := one_le_approximate_tokens x
        simp only [List.map_cons, List.sum_cons]
        omega
    omega
  · intro hbudget
    unfold enforce_unified_context_window
    by_cases hE : history.isEmpty = true
    · rw [if_pos hE]
    · rw [if_neg hE, if_pos (by rw [hsum]; exact hbudget)]

/-- C4 counterexample: with `preserve_recent_turns = 0` (a value the
`ContextTrimConfig` type admits), strategy 1 deletes the sole — and last —
message of a history consisting of one tool response, refuting the claim
for arbitrary configurations. -/
theorem prune_can_evict_last_message :
    (prune_unified_tool_responses [⟨.tool, "r", none, some "c", none⟩]
      ⟨140, 80, 0, false, false, 3, 5⟩).1.getLast?
      ≠ ([⟨.tool, "r", none, some "c", none⟩] : List Message).getLast? := by decide

/-- Witness: C4 applied to a one-message history with
`preserve_recent_turns = 1`. -/
theorem last_message_never_evicted_witness :
    1 ≤ (⟨10, 50, 1, false, false, 3, 5⟩ : ContextTrimConfig).preserve_recent_turns
      ∧ (prune_unified_tool_responses [⟨.user, "hi", none, none, none⟩]
          ⟨10, 50, 1, false, false, 3, 5⟩).1.getLast?
        = ([⟨.user, "hi", none, none, none⟩] : List Message).getLast? :=
  ⟨by decide, (last_message_never_evicted _ _ (by decide)).1⟩

/-- Witness: C5's strict decrease applied to a two-message history that
exceeds a budget of 3 tokens. -/
theorem enforce_token_monotonicity_witness :
    (⟨3, 50, 1, false, false, 3, 5⟩ : ContextTrimConfig).max_tokens
        < tokensOf [⟨.assistant, "0123456789", none, none, none⟩,
            ⟨.assistant, "0123456789", none, none, none⟩]
      ∧ 2 ≤ ([⟨.assistant, "0123456789", none, none, none⟩,
            ⟨.assistant, "0123456789", none, none, none⟩] : List Message).length
      ∧ tokensOf (enforce_unified_context_window
          [⟨.assistant, "0123456789", none, none, none⟩,
            ⟨.assistant, "0123456789", none, none, none⟩]
          ⟨3, 50, 1, false, false, 3, 5⟩ [0, 0]).1
        < tokensOf [⟨.assistant, "0123456789", none, none, none⟩,
            ⟨.assistant, "0123456789", none, none, none⟩] :=
  ⟨by decide, by decide,
    (enforce_context_window_token_monotonicity _ _ _).2.1 (by decide) (by decide)⟩

/-- Witness: C6 applied to the two-message history of scenario S2's shape:
the plain user message at index 0 survives the pass. -/
theorem prune_characterization_witness :
    (((0 : Nat), (⟨.user, "keep", none, none, none⟩ : Message)) : Nat × Message).2
        ∈ (prune_unified_tool_responses
            [⟨.user, "keep", none, none, none⟩, ⟨.tool, "r1", none, some "call_1", none⟩]
            ⟨140, 80, 1, false, false, 3, 5⟩).1 :=
  (prune_tool_responses_characterization
      [⟨.user, "keep", none, none, none⟩, ⟨.tool, "r1", none, some "call_1", none⟩]
      ⟨140, 80, 1, false, false, 3, 5⟩).2.2.2
    ((0 : Nat), (⟨.user, "keep", none, none, none⟩ : Message)) (by decide) (by decide)

/-! ## Patch applicator: filesystem model

`vtcode-core/src/tools/editing/patch/applicator/`.  The workspace is a
partial map from root-relative paths (forward-slash segment lists, per the
spec's path discipline) to entries.  The `tokio::fs` primitives the
applicator calls are modelled pointwise: `metadata` is lookup, `rename`
moves a whole subtree (atomic same-filesystem rename), `create_dir_all`
adds every missing ancestor directory.  `temporary_path` derives its
uniqueness from the pid and a nanosecond timestamp; that source of
freshness is modelled by a monotone counter carried in the state. -/

/-- A root-relative path, as forward-slash separated segments. -/
abbrev FsPath := List String

/-- Splitting a relative path on `'/'` (structural recursion on the
character list, semantically `String.splitOn "/"`). -/
def segsAux : List Char → String → List String
  | [], acc => [acc]
  | c :: rest, acc =>
      if c = '/' then acc :: segsAux rest "" else segsAux rest (acc.push c)

/-- `root.join(path)` on a relative path string. -/
def segs (s : String) : FsPath := segsAux s.data ""

/-- A filesystem entry: a regular file with contents and permission bits,
or a directory. -/
inductive Entry where
  | file (content : String) (perms : Nat) : Entry
  | dir : Entry
deriving Repr, DecidableEq

/-- Workspace state: the entry map plus the freshness counter feeding
`temporary_path`. -/
structure FS where
  entry : FsPath → Option Entry
  tempCounter : Nat

/-- `fs::metadata`: entry lookup. -/
def FS.metadata (fs : FS) (p : FsPath) : Option Entry := fs.entry p

/-- Permission bits `fs::File::create` gives a fresh file (the value is
irrelevant to every claim; `set_permissions` may overwrite it). -/
def newFilePerms : Nat := 420

/-- Point update of the entry map. -/
def FS.setEntry (fs : FS) (p : FsPath) (e : Entry) : FS :=
  { fs with entry := fun q => if q = p then some e else fs.entry q }

/-- `fs::remove_file` / exact-key removal. -/
def FS.removeEntry (fs : FS) (p : FsPath) : FS :=
  { fs with entry := fun q => if q = p then none else fs.entry q }

/-- `fs::rename a b`: the subtree rooted at `a` now answers under `b`;
whatever was under `b` is replaced; nothing answers under `a` any more. -/
def FS.rename (fs : FS) (a b : FsPath) : FS :=
  { fs with entry := fun q =>
      if b.isPrefixOf q then fs.entry (a ++ q.drop b.length)
      else if a.isPrefixOf q then none
      else fs.entry q }

/-- The nonempty ancestor prefixes of a path, shortest first. -/
def ancestorPaths (p : FsPath) : List FsPath :=
  (List.range p.length).map (fun k => p.take (k + 1))

/-- `fs::create_dir_all`: every missing ancestor becomes a directory,
existing entries are untouched.  (Failure when an ancestor exists as a
regular file is not modelled; no claim exercises it.) -/
def FS.create_dir_all (fs : FS) (p : FsPath) : FS :=
  { fs with entry := fun q =>
      if q ∈ ancestorPaths p ∧ fs.entry q = none then some Entry.dir
      else fs.entry q }

/-- `remove_existing_entry` (`io.rs` lines 179-206): delete whatever sits
at the path (file or directory subtree); absent is fine. -/
def remove_existing_entry (fs : FS) (p : FsPath) : FS :=
  { fs with entry := fun q =>
      if p.isPrefixOf q then none else fs.entry q }

/-- `temporary_path` (`io.rs` lines 208-227): a sibling
`.<name>.<pid>.<nanos>.tmp`; pid and timestamp are folded into the state's
freshness counter.  Returns the bumped state and the temp path. -/
def FS.freshTemp (fs : FS) (target : FsPath) : FS × FsPath :=
  let file_name := (target.getLast?).getD "vtcode-patch"
  let temp_name := "." ++ file_name ++ "." ++ toString fs.tempCounter ++ ".tmp"
  ({ fs with tempCounter := fs.tempCounter + 1 }, target.dropLast ++ [temp_name])

/-- `PatchError` (`error.rs`): the applicator's error taxonomy.  `Io`
carries its action tag and path (the OS error source is opaque);
`TempPath` likewise. -/
inductive PatchError where
  | noOperations : PatchError
  | invalidOperation (path : String) (reason : String) : PatchError
  | missingFile (path : String) : PatchError
  | segmentNotFound (path : String) (context : String) : PatchError
  | io (action : String) (path : FsPath) : PatchError
  | tempPath (path : FsPath) : PatchError
  | recovery (original : PatchError) (rollback : PatchError) : PatchError
deriving Repr, DecidableEq

/-- `PatchChunk`: one contextual replacement of an `UpdateFile` (pre-image
text and its replacement). -/
structure PatchChunk where
  pre_image : String
  post_image : String
deriving Repr, DecidableEq

/-- `PatchOperation` (`vtcode-core/src/tools/editing/patch`): the parsed
operation list. -/
inductive PatchOperation where
  | addFile (path : String) (content : String) : PatchOperation
  | deleteFile (path : String) : PatchOperation
  | updateFile (path : String) (new_path : Option String) (chunks : List PatchChunk) :
      PatchOperation
deriving Repr, DecidableEq

/-- `PreparedOperation` (`planner.rs` lines 9-23). -/
inductive PreparedOperation where
  | add (path : String) (content : String) : PreparedOperation
  | delete (path : String) : PreparedOperation
  | update (path : String) (new_path : Option String) (chunks : List PatchChunk)
      (permissions : Nat) : PreparedOperation
deriving Repr, DecidableEq

/-- Permission bits of an entry (`metadata.permissions()`); directories
also carry bits in reality, but only file permissions are ever recorded. -/
def Entry.permBits : Entry → Nat
  | .file _ perms => perms
  | .dir => newFilePerms

/-- Validation of a single operation by `plan_operations` (`planner.rs`
lines 35-121).  `fs::metadata` is a pure read in the model, so the
`Err(kind ≠ NotFound)` branches of the source (propagated as `Io`) have no
counterpart; everything else is branch-for-branch. -/
def planOne (fs : FS) (op : PatchOperation) : Except PatchError PreparedOperation :=
  match op with
  | .addFile path content =>
      match fs.metadata (segs path) with
      | some _ => .error (.invalidOperation path "target already exists")
      | none => .ok (.add path content)
  | .deleteFile path => .ok (.delete path)
  | .updateFile path new_path chunks =>
      match fs.metadata (segs path) with
      | none => .error (.missingFile path)
      | some entry =>
          if entry = Entry.dir then
            .error (.invalidOperation path "cannot apply text diff to directory")
          else
            match new_path.filter (fun candidate => candidate != path) with
            | some dest_rel =>
                match fs.metadata (segs dest_rel) with
                | some existing =>
                    .error (.invalidOperation dest_rel
                      (if existing = Entry.dir then "destination is a directory"
                        else "destination file already exists"))
                | none => .ok (.update path new_path chunks entry.permBits)
            | none => .ok (.update path new_path chunks entry.permBits)

/-- The traversal loop of `plan_operations` (`planner.rs` lines 35-124):
first validation failure aborts. -/
def planLoop (fs : FS) : List PatchOperation → Except PatchError (List PreparedOperation)
  | [] => .ok []
  | op :: rest =>
      match planOne fs op with
      | .error e => .error e
      | .ok prepared =>
          match planLoop fs rest with
          | .error e => .error e
          | .ok prepareds => .ok (prepared :: prepareds)

/-- `plan_operations` (`planner.rs` lines 25-125). -/
def plan_operations (fs : FS) (operations : List PatchOperation) :
    Except PatchError (List PreparedOperation) :=
  if operations.isEmpty then .error .noOperations
  else planLoop fs operations

/-! ## Atomic writer (`io.rs` lines 11-104)

`create` opens a sibling temp file, `write_all` buffers into the
`BufWriter`, `commit` flushes, optionally chmods, then renames over the
target.  Each awaited filesystem call in `commit` can fail; those failure
points are injected through `CommitFaults` so the cleanup behaviour at
each of them can be examined. -/

/-- In-memory state of an `AtomicWriter`. -/
structure AtomicWriter where
  path : FsPath
  temp_path : FsPath
  buffer : String
  permissions : Option Nat
deriving Repr, DecidableEq

/-- Which awaited call inside `AtomicWriter::commit` fails, if any. -/
structure CommitFaults where
  flushFails : Bool
  setPermissionsFails : Bool
  renameFails : Bool
deriving Repr, DecidableEq

/-- No injected failures. -/
def noFaults : CommitFaults := ⟨false, false, false⟩

/-- `AtomicWriter::create` (`io.rs` lines 19-48): ensure the parent
directories, then create the sibling temp file empty.  (For a bare
filename the parent path is empty and `create_dir_all` is a no-op, exactly
as `create_dir_all("")` succeeds without effect.) -/
def AtomicWriter.create (fs : FS) (path : FsPath) (permissions : Option Nat) :
    FS × AtomicWriter :=
  let fs1 := fs.create_dir_all path.dropLast
  let (fs2, temp_path) := fs1.freshTemp path
  (fs2.setEntry temp_path (.file "" newFilePerms),
    ⟨path, temp_path, "", permissions⟩)

/-- `AtomicWriter::write_all` (`io.rs` lines 50-59): append to the
`BufWriter`'s in-memory buffer. -/
def AtomicWriter.write_all (w : AtomicWriter) (bytes : String) : AtomicWriter :=
  { w with buffer := w.buffer ++ bytes }

/-- `AtomicWriter::commit` (`io.rs` lines 61-90): flush the buffer to the
temp file, optionally set permissions on it, then rename it over the
target.  Only the rename failure arm deletes the temp file; a flush or
set-permissions failure returns the error with the temp file still on
disk (`?` propagation with no cleanup). -/
def AtomicWriter.commit (w : AtomicWriter) (fs : FS) (f : CommitFaults) :
    FS × Except PatchError Unit :=
  if f.flushFails then (fs, .error (.io "flush" w.temp_path))
  else
    let fs1 := fs.setEntry w.temp_path (.file w.buffer newFilePerms)
    match w.permissions with
    | some perms =>
        if f.setPermissionsFails then (fs1, .error (.io "set permissions" w.temp_path))
        else
          let fs2 := fs1.setEntry w.temp_path (.file w.buffer perms)
          if f.renameFails then
            (fs2.removeEntry w.temp_path, .error (.io "rename" w.path))
          else (fs2.rename w.temp_path w.path, .ok ())
    | none =>
        if f.renameFails then
          (fs1.removeEntry w.temp_path, .error (.io "rename" w.path))
        else (fs1.rename w.temp_path w.path, .ok ())

/-- `AtomicWriter::rollback` (`io.rs` lines 92-103): drop the writer and
delete the temp file (absent is fine). -/
def AtomicWriter.rollbackWriter (w : AtomicWriter) (fs : FS) : FS :=
  fs.removeEntry w.temp_path

/-- `BackupKind` (`io.rs` lines 112-116). -/
inductive BackupKind where
  | file : BackupKind
  | directory : BackupKind
deriving Repr, DecidableEq

/-- `BackupEntry` (`io.rs` lines 106-110): the sibling temp name an
existing entry was renamed to. -/
structure BackupEntry where
  path : FsPath
  kind : BackupKind
deriving Repr, DecidableEq

/-- `BackupEntry::remove` (`io.rs` lines 134-155): delete the backup
artifact (file or directory subtree). -/
def BackupEntry.remove (b : BackupEntry) (fs : FS) : FS :=
  match b.kind with
  | .file => fs.removeEntry b.path
  | .directory => remove_existing_entry fs b.path

/-- `BackupEntry::restore` (`io.rs` lines 157-176): rename the backup back
over `destination`, clearing whatever sits there first. -/
def BackupEntry.restore (b : BackupEntry) (fs : FS) (destination : FsPath) : FS :=
  let fs1 :=
    if fs.metadata destination = none then fs
    else remove_existing_entry fs destination
  fs1.rename b.path destination

/-- The backup kind `snapshot_for` derives from the target's metadata. -/
def backupKindOf : Entry → BackupKind
  | .dir => BackupKind.directory
  | .file _ _ => BackupKind.file

/-- `snapshot_for` (`io.rs` lines 229-247): rename an existing entry to a
sibling temp name and hand back the backup handle; absent target means no
snapshot. -/
def snapshot_for (fs : FS) (path : FsPath) : FS × Option BackupEntry :=
  match fs.metadata path with
  | some entry =>
      let (fs1, backup_path) := fs.freshTemp path
      (fs1.rename path backup_path, some ⟨backup_path, backupKindOf entry⟩)
  | none => (fs, none)

/-! ## Journal and runner (`journal.rs`, `runner.rs`)

`execute_plan` is generic in the world it mutates and in the journal-entry
type: `OperationExecutor::execute` dispatches into the per-operation
modules and `OperationState::{rollback, commit}` live in the lifecycle
module, so the runner is embedded over an `ExecModel` bundle of those
three transition functions and instantiated below with the concrete
filesystem model. -/

/-- `OperationEffect` (lifecycle): an executed operation either applied —
carrying its undo state — or was skipped. -/
inductive OperationEffect (σ : Type) where
  | applied (state : σ) (detail : String) : OperationEffect σ
  | skipped (detail : String) : OperationEffect σ
deriving Repr, DecidableEq

/-- The three transition functions the runner is parameterized by:
`OperationExecutor::execute`, `OperationState::rollback`,
`OperationState::commit`.  A rollback may fail and still have moved the
world; an error is reported alongside the new world. -/
structure ExecModel (ω σ : Type) where
  exec : ω → PreparedOperation → ω × Except PatchError (OperationEffect σ)
  rollbackState : ω → σ → ω × Option PatchError
  commitState : ω → σ → ω × Except PatchError Unit

/-- The `while let Some(state) = self.applied.pop()` loop of
`OperationJournal::rollback_all` (`journal.rs` lines 19-33), running over
the already-reversed journal and keeping the first error
(`get_or_insert`). -/
def rollbackAllGo {ω σ : Type} (M : ExecModel ω σ) :
    ω → List σ → Option PatchError → ω × Option PatchError
  | w, [], acc => (w, acc)
  | w, s :: rest, acc =>
      let r := M.rollbackState w s
      rollbackAllGo M r.1 rest (acc.orElse (fun _ => r.2))

/-- `OperationJournal::rollback_all`: pop from the end of the journal,
roll each entry back, report the first rollback error if any. -/
def rollback_all {ω σ : Type} (M : ExecModel ω σ) (w : ω) (journal : List σ) :
    ω × Option PatchError :=
  rollbackAllGo M w journal.reverse none

/-- `OperationJournal::commit_all` (`journal.rs` lines 35-40): pop from
the end, commit each entry, abort on the first error. -/
def commitAllGo {ω σ : Type} (M : ExecModel ω σ) :
    ω → List σ → ω × Except PatchError Unit
  | w, [] => (w, .ok ())
  | w, s :: rest =>
      match M.commitState w s with
      | (w1, .ok _) => commitAllGo M w1 rest
      | (w1, .error e) => (w1, .error e)

/-- `OperationJournal::commit_all` over the recorded order. -/
def commit_all {ω σ : Type} (M : ExecModel ω σ) (w : ω) (journal : List σ) :
    ω × Except PatchError Unit :=
  commitAllGo M w journal.reverse

/-- `ProgressMarker::new(i, N).annotate(detail)` (`progress.rs`). -/
def progressAnnotate (current total : Nat) (detail : String) : String :=
  "[" ++ toString current ++ "/" ++ toString total ++ "] " ++ detail

/-- The loop of `execute_plan` (`runner.rs` lines 19-43) with the journal,
results and index accumulators explicit: applied effects append their undo
state to the journal, skipped effects do not, the first operation error
triggers `rollback_all` and wraps a rollback failure in `Recovery`, and an
exhausted plan commits the journal. -/
def executePlanGo {ω σ : Type} (M : ExecModel ω σ) (progress_total : Nat) :
    ω → List σ → List String → Nat → List PreparedOperation →
      ω × Except PatchError (List String)
  | w, journal, results, _, [] =>
      match commit_all M w journal with
      | (w1, .ok _) => (w1, .ok results)
      | (w1, .error e) => (w1, .error e)
  | w, journal, results, index, op :: rest =>
      match M.exec w op with
      | (w1, .ok (.applied state detail)) =>
          executePlanGo M progress_total w1 (journal ++ [state])
            (results ++ [progressAnnotate (index + 1) progress_total detail])
            (index + 1) rest
      | (w1, .ok (.skipped detail)) =>
          executePlanGo M progress_total w1 journal
            (results ++ [progressAnnotate (index + 1) progress_total detail])
            (index + 1) rest
      | (w1, .error err) =>
          match rollback_all M w1 journal with
          | (w2, none) => (w2, .error err)
          | (w2, some rollback_err) => (w2, .error (.recovery err rollback_err))

/-- `execute_plan` (`runner.rs` lines 9-44). -/
def execute_plan {ω σ : Type} (M : ExecModel ω σ) (w : ω)
    (plan : List PreparedOperation) : ω × Except PatchError (List String) :=
  executePlanGo M (max plan.length 1) w [] [] 0 plan

/-! ## Concrete operations (`operations/add.rs`, `operations/delete.rs`,
`operations/update.rs`) and lifecycle states -/

/-- `OperationState` journal entries.  `AddedFile` and `DeletedFile` are
the variants `add.rs` and `delete.rs` construct; `UpdatedFile` is the
update operation's record (its module is not among the sources at hand;
its shape follows the spec's undo description). -/
inductive OperationState where
  | addedFile (path : FsPath) : OperationState
  | deletedFile (original_path : FsPath) (backup : BackupEntry) : OperationState
  | updatedFile (original_path : FsPath) (destination : Option FsPath)
      (backup : Option BackupEntry) : OperationState
deriving Repr, DecidableEq

/-- `AddOperation::apply` (`add.rs` lines 17-30): atomic-write the content
to the target; the undo record is `AddedFile`. -/
def addApply (fs : FS) (path content : String) :
    FS × Except PatchError (OperationEffect OperationState) :=
  let full_path := segs path
  let created := AtomicWriter.create fs full_path none
  let w1 := created.2.write_all content
  match w1.commit created.1 noFaults with
  | (fs2, .ok _) =>
      (fs2, .ok (.applied (.addedFile full_path)
        ("Added file: " ++ path ++ " (" ++ toString content.utf8ByteSize ++ " bytes)")))
  | (fs2, .error e) => (fs2, .error e)

/-- `DeleteOperation::apply` (`delete.rs` lines 16-32): snapshot an
existing target (undo record = the snapshot handle), emit a skipped result
when the target is absent. -/
def deleteApply (fs : FS) (path : String) :
    FS × Except PatchError (OperationEffect OperationState) :=
  let full_path := segs path
  match snapshot_for fs full_path with
  | (fs1, some backup) =>
      (fs1, .ok (.applied (.deletedFile full_path backup) ("Deleted file: " ++ path)))
  | (fs1, none) =>
      (fs1, .ok (.skipped ("File not found, skipped deletion: " ++ path)))

/-- Modelled from the spec: locating a chunk's pre-image in the working
text and replacing its first occurrence (the update module is not among
the sources at hand). -/
def replaceFirst (text pat rep : String) : Option String :=
  match text.splitOn pat with
  | [] => none
  | [_] => none
  | p0 :: p1 :: rest => some (p0 ++ rep ++ String.intercalate pat (p1 :: rest))

/-- Modelled from the spec: "apply chunks sequentially by locating each
chunk's pre-image in the working text and replacing it with the post-image
(failure if a pre-image cannot be found yields `SegmentNotFound`)". -/
def applyChunks (path : String) : String → List PatchChunk → Except PatchError String
  | text, [] => .ok text
  | text, chunk :: rest =>
      match replaceFirst text chunk.pre_image chunk.post_image with
      | some next => applyChunks path next rest
      | none => .error (.segmentNotFound path chunk.pre_image)

/-- Modelled from the spec: `UpdateOperation::apply` — read the source,
apply the chunks, snapshot the source, atomic-write the new content to the
source or the `move_to` destination preserving the recorded permission
bits (`operations/update.rs` is not among the sources at hand). -/
def updateApply (fs : FS) (path : String) (new_path : Option String)
    (chunks : List PatchChunk) (permissions : Nat) :
    FS × Except PatchError (OperationEffect OperationState) :=
  let source := segs path
  match fs.metadata source with
  | some (.file content _) =>
      match applyChunks path content chunks with
      | .error e => (fs, .error e)
      | .ok new_content =>
          let snap := snapshot_for fs source
          let dest := match new_path.filter (fun candidate => candidate != path) with
            | some d => segs d
            | none => source
          let created := AtomicWriter.create snap.1 dest (some permissions)
          let w1 := created.2.write_all new_content
          match w1.commit created.1 noFaults with
          | (fs3, .ok _) =>
              (fs3, .ok (.applied
                (.updatedFile source (if dest = source then none else some dest) snap.2)
                ("Updated file: " ++ path)))
          | (fs3, .error e) => (fs3, .error e)
  | _ => (fs, .error (.missingFile path))

/-- `OperationExecutor::execute` (`executor.rs`): dispatch a prepared
operation to its module. -/
def execOperation (fs : FS) (op : PreparedOperation) :
    FS × Except PatchError (OperationEffect OperationState) :=
  match op with
  | .add path content => addApply fs path content
  | .delete path => deleteApply fs path
  | .update path new_path chunks permissions =>
      updateApply fs path new_path chunks permissions

/-- Modelled from the spec: `OperationState::rollback` (the lifecycle
module is not among the sources at hand) — `AddedFile` deletes the target;
`DeletedFile` restores the snapshot; `UpdatedFile` removes the distinct
destination and restores the snapshot to the original path. -/
def stateRollback (fs : FS) (st : OperationState) : FS × Option PatchError :=
  match st with
  | .addedFile path => (fs.removeEntry path, none)
  | .deletedFile original_path backup => (backup.restore fs original_path, none)
  | .updatedFile original_path destination backup =>
      let fs1 := match destination with
        | some d => remove_existing_entry fs d
        | none => fs
      match backup with
      | some b => (b.restore fs1 original_path, none)
      | none => (fs1, none)

/-- Modelled from the spec: `OperationState::commit` (lifecycle module not
among the sources at hand) — commit "means deleting backup/temp
artifacts": `AddedFile` has none, the others drop their snapshot. -/
def stateCommit (fs : FS) (st : OperationState) : FS × Except PatchError Unit :=
  match st with
  | .addedFile _ => (fs, .ok ())
  | .deletedFile _ backup => (backup.remove fs, .ok ())
  | .updatedFile _ _ backup =>
      match backup with
      | some b => (b.remove fs, .ok ())
      | none => (fs, .ok ())

/-- The concrete runner instantiation for the workspace filesystem. -/
def applicatorModel : ExecModel FS OperationState :=
  ⟨execOperation, stateRollback, stateCommit⟩

/-- `apply` (`applicator/mod.rs` lines 18-24): plan, then execute. -/
def applyPatch (fs : FS) (operations : List PatchOperation) :
    FS × Except PatchError (List String) :=
  match plan_operations fs operations with
  | .error e => (fs, .error e)
  | .ok plan => execute_plan applicatorModel fs plan

/-! ## Applicator lemmas and claims -/

/-- The spec's reading of the unwind: roll the journal back from the most
recently applied entry to the first, threading the world and keeping the
first rollback error encountered. -/
def rollbackInReverse {ω σ : Type} (M : ExecModel ω σ) (w : ω) (journal : List σ) :
    ω × Option PatchError :=
  journal.foldr
    (fun s acc =>
      let r := M.rollbackState acc.1 s
      (r.1, acc.2.orElse (fun _ => r.2)))
    (w, none)

/-- The journal loop is the accumulator form of a fold. -/
theorem rollbackAllGo_eq_foldl {ω σ : Type} (M : ExecModel ω σ) :
    ∀ (l : List σ) (w : ω) (acc : Option PatchError),
      rollbackAllGo M w l acc =
        l.foldl
          (fun st s =>
            let r := M.rollbackState st.1 s
            (r.1, st.2.orElse (fun _ => r.2)))
          (w, acc) := by
  intro l
  induction l with
  | nil => intro w acc; rfl
  | cons s rest ih =>
      intro w acc
      simp only [rollbackAllGo, List.foldl_cons]
      exact ih _ _

/-- `rollback_all` unwinds the journal exactly in reverse order of
application, reporting the first rollback error of that sweep. -/
theorem rollback_all_eq_reverse {ω σ : Type} (M : ExecModel ω σ) (w : ω)
    (journal : List σ) :
    rollback_all M w journal = rollbackInReverse M w journal := by
  unfold rollback_all rollbackInReverse
  rw [rollbackAllGo_eq_foldl, List.foldl_reverse]

/-- A prefix of the plan that executes without error from world `w` to
world `wf`, recording journal `js` (in order of application): the
`Applied` steps append their state, `Skipped` steps do not. -/
inductive RunsTo {ω σ : Type} (M : ExecModel ω σ) :
    ω → List PreparedOperation → ω → List σ → Prop where
  | nil (w : ω) : RunsTo M w [] w []
  | applied {w w1 wf : ω} {op : PreparedOperation} {ops : List PreparedOperation}
      {js : List σ} {state : σ} {detail : String} :
      M.exec w op = (w1, .ok (.applied state detail)) →
      RunsTo M w1 ops wf js →
      RunsTo M w (op :: ops) wf (state :: js)
  | skipped {w w1 wf : ω} {op : PreparedOperation} {ops : List PreparedOperation}
      {js : List σ} {detail : String} :
      M.exec w op = (w1, .ok (.skipped detail)) →
      RunsTo M w1 ops wf js →
      RunsTo M w (op :: ops) wf js

/-- Accumulator-generalized failure behaviour of the runner loop: once an
operation fails, the accumulated journal is rolled back and the error is
packaged. -/
theorem executePlanGo_fail {ω σ : Type} (M : ExecModel ω σ) (progress_total : Nat)
    (pre : List PreparedOperation) (w w1 : ω) (js : List σ)
    (hpre : RunsTo M w pre w1 js) :
    ∀ (js0 : List σ) (results : List String) (index : Nat)
      (op : PreparedOperation) (rest : List PreparedOperation) (w2 : ω)
      (err : PatchError),
      M.exec w1 op = (w2, .error err) →
      executePlanGo M progress_total w js0 results index (pre ++ op :: rest) =
        ((rollback_all M w2 (js0 ++ js)).1,
          .error
            (match (rollback_all M w2 (js0 ++ js)).2 with
              | none => err
              | some rollback_err => .recovery err rollback_err)) := by
  induction hpre with
  | nil w =>
      intro js0 results index op rest w2 err hfail
      simp only [List.nil_append, executePlanGo, hfail, List.append_nil]
      rcases hr : rollback_all M w2 js0 with ⟨wr, e⟩
      cases e <;> simp
  | applied hstep _ ih =>
      intro js0 results index op rest w2 err hfail
      simp only [List.cons_append, executePlanGo, hstep, List.append_eq]
      rw [ih _ _ _ _ _ _ _ hfail, List.append_assoc]
      rfl
  | skipped hstep _ ih =>
      intro js0 results index op rest w2 err hfail
      simp only [List.cons_append, executePlanGo, hstep, List.append_eq]
      rw [ih _ _ _ _ _ _ _ hfail]

/-- C1: when an operation fails during execution after a prefix has run
(recording journal `js`), `execute_plan` unwinds all previously applied
operations in reverse order of application (the `rollbackInReverse` fold)
and returns the original operation error — or, when the unwind itself
reported an error, a `Recovery` carrying both. -/
theorem execute_plan_rolls_back_in_reverse {ω σ : Type} (M : ExecModel ω σ)
    (pre : List PreparedOperation) (op : PreparedOperation)
    (rest : List PreparedOperation) (w w1 w2 : ω) (js : List σ) (err : PatchError)
    (hpre : RunsTo M w pre w1 js)
    (hfail : M.exec w1 op = (w2, .error err)) :
    execute_plan M w (pre ++ op :: rest) =
      ((rollbackInReverse M w2 js).1,
        .error
          (match (rollbackInReverse M w2 js).2 with
            | none => err
            | some rollback_err => .recovery err rollback_err)) := by
  unfold execute_plan
  rw [executePlanGo_fail M _ pre w w1 js hpre [] [] 0 op rest w2 err hfail,
    List.nil_append, rollback_all_eq_reverse]

/-- A small instantiation of the runner (counter world, one failing
operation kind) used to witness the rollback theorem. -/
def toyModel : ExecModel Nat Nat where
  exec := fun w op =>
    match op with
    | .delete _ => (w + 1, .error (.io "boom" []))
    | _ => (w + 1, .ok (.applied w "done"))
  rollbackState := fun w _ => (w + 10, none)
  commitState := fun w _ => (w, .ok ())

/-- Witness: C1 applied to a two-operation plan whose second operation
fails after the first applied. -/
theorem execute_plan_rollback_witness :
    execute_plan toyModel 0 [.add "a" "x", .delete "b"] =
      ((rollbackInReverse toyModel 2 [0]).1,
        .error
          (match (rollbackInReverse toyModel 2 [0]).2 with
            | none => PatchError.io "boom" []
            | some rollback_err => .recovery (PatchError.io "boom" []) rollback_err)) :=
  execute_plan_rolls_back_in_reverse toyModel [.add "a" "x"] (.delete "b") [] 0 1 2 [0]
    (.io "boom" []) (RunsTo.applied rfl (RunsTo.nil 1)) rfl

/-- C2: the plan phase validates every operation's preconditions — an
`AddFile` target must not exist, an `UpdateFile` source must exist and not
be a directory (its permission bits are recorded in the prepared
operation), a distinct `move_to` destination must not exist, an empty list
yields `NoOperations` — the first violation aborts planning with the
corresponding error, and any plan failure makes `apply` return that error
with the workspace untouched. -/
theorem plan_validates_preconditions (fs : FS) :
    plan_operations fs [] = .error .noOperations
      ∧ (∀ ops e, plan_operations fs ops = .error e → applyPatch fs ops = (fs, .error e))
      ∧ (∀ p c e, fs.metadata (segs p) = some e →
          planOne fs (.addFile p c) = .error (.invalidOperation p "target already exists"))
      ∧ (∀ p c, fs.metadata (segs p) = none →
          planOne fs (.addFile p c) = .ok (.add p c))
      ∧ (∀ p np ch, fs.metadata (segs p) = none →
          planOne fs (.updateFile p np ch) = .error (.missingFile p))
      ∧ (∀ p np ch, fs.metadata (segs p) = some .dir →
          planOne fs (.updateFile p np ch) =
            .error (.invalidOperation p "cannot apply text diff to directory"))
      ∧ (∀ p np ch content perms d e,
          fs.metadata (segs p) = some (.file content perms) →
          np = some d → d ≠ p → fs.metadata (segs d) = some e →
          planOne fs (.updateFile p np ch) =
            .error (.invalidOperation d
              (if e = Entry.dir then "destination is a directory"
                else "destination file already exists")))
      ∧ (∀ p np ch content perms,
          fs.metadata (segs p) = some (.file content perms) →
          (∀ d, np = some d → d ≠ p → fs.metadata (segs d) = none) →
          planOne fs (.updateFile p np ch) = .ok (.update p np ch perms))
      ∧ (∀ p, planOne fs (.deleteFile p) = .ok (.delete p))
      ∧ (∀ pre op rest e,
          (∀ o ∈ pre, ∃ po, planOne fs o = .ok po) →
          planOne fs op = .error e →
          plan_operations fs (pre ++ op :: rest) = .error e) := by
  refine ⟨rfl, ?_, ?_, ?_, ?_, ?_, ?_, ?_, ?_, ?_⟩
  · intro ops e h
    unfold applyPatch
    rw [h]
  · intro p c e h
    simp [planOne, h]
  · intro p c h
    simp [planOne, h]
  · intro p np ch h
    simp [planOne, h]
  · intro p np ch h
    simp [planOne, h]
  · intro p np ch content perms d e hsrc hnp hne hdst
    subst hnp
    have hf : (some d).filter (fun candidate => candidate != p) = some d := by
      simp [Option.filter, hne]
    simp [planOne, hsrc, hf, hdst]
  · intro p np ch content perms hsrc hdst
    cases np with
    | none => simp [planOne, hsrc, Option.filter, Entry.permBits]
    | some d =>
        by_cases hdp : d = p
        · subst hdp
          simp [planOne, hsrc, Option.filter, Entry.permBits]
        · have := hdst d rfl hdp
          have hf : (some d).filter (fun candidate => candidate != p) = some d := by
            simp [Option.filter, hdp]
          simp [planOne, hsrc, hf, this, Entry.permBits]
  · intro p
    rfl
  · intro pre op rest e hok hfail
    have hloop : ∀ pre2 : List PatchOperation,
        (∀ o ∈ pre2, ∃ po, planOne fs o = .ok po) →
        planLoop fs (pre2 ++ op :: rest) = .error e := by
      intro pre2
      induction pre2 with
      | nil =>
          intro _
          simp only [List.nil_append, planLoop, hfail]
      | cons o pre2' ih =>
          intro hok2
          obtain ⟨po, hpo⟩ := hok2 o (List.mem_cons_self _ _)
          simp only [List.cons_append, planLoop, hpo, List.append_eq]
          rw [ih (fun o2 ho2 => hok2 o2 (List.mem_cons.2 (Or.inr ho2)))]
    have hne : (pre ++ op :: rest).isEmpty = false := by
      cases pre <;> rfl
    unfold plan_operations
    rw [hne]
    simp only [Bool.false_eq_true, if_false]
    exact hloop pre hok

/-- A workspace with one file at `duplicate.txt`, used by witnesses. -/
def fsDup : FS :=
  ⟨fun q => if q = segs "duplicate.txt" then some (.file "original\n" 420) else none, 0⟩

/-- Witness: C2 applied to an `AddFile` whose target exists — planning
fails with `InvalidOperation` and `apply` leaves the workspace value
untouched. -/
theorem plan_validates_preconditions_witness :
    applyPatch fsDup [.addFile "duplicate.txt" "hello"] =
      (fsDup, .error (.invalidOperation "duplicate.txt" "target already exists")) :=
  (plan_validates_preconditions fsDup).2.1 [.addFile "duplicate.txt" "hello"]
    (.invalidOperation "duplicate.txt" "target already exists") rfl

deriving instance DecidableEq for Except

/-- C3 counterexample: a flush failure — a failure before the final
rename — propagates out of `AtomicWriter::commit` via `?` without any
cleanup, leaving the temp file on disk, contrary to the claim that any
failure before the rename deletes it. -/
theorem commit_flush_failure_leaves_temp :
    (((AtomicWriter.create ⟨fun _ => none, 0⟩ (segs "a.txt") none).2.write_all "hi").commit
        (AtomicWriter.create ⟨fun _ => none, 0⟩ (segs "a.txt") none).1
        ⟨true, false, false⟩).2
      = .error (.io "flush" (segs ".a.txt.0.tmp"))
    ∧ ((((AtomicWriter.create ⟨fun _ => none, 0⟩ (segs "a.txt") none).2.write_all "hi").commit
        (AtomicWriter.create ⟨fun _ => none, 0⟩ (segs "a.txt") none).1
        ⟨true, false, false⟩).1.metadata (segs ".a.txt.0.tmp")).isSome = true := by
  constructor
  · decide
  · decide

/-- C3 (amended): inside `AtomicWriter::commit`, only a failure of the
final rename deletes the temporary file; a flush failure returns the error
with the state untouched (the temp file stays), a set-permissions failure
returns the error with the flushed temp file still present, and a
successful commit installs the buffered bytes at the target. -/
theorem commit_cleanup_only_on_rename_failure (w : AtomicWriter) (fs : FS)
    (f : CommitFaults) :
    (f.flushFails = true → w.commit fs f = (fs, .error (.io "flush" w.temp_path)))
      ∧ (f.flushFails = false → f.setPermissionsFails = true →
          ∀ perms, w.permissions = some perms →
            (w.commit fs f).2 = .error (.io "set permissions" w.temp_path)
              ∧ (w.commit fs f).1.metadata w.temp_path
                  = some (.file w.buffer newFilePerms))
      ∧ (f.flushFails = false → f.renameFails = true →
          (w.permissions = none ∨ f.setPermissionsFails = false) →
            (w.commit fs f).2 = .error (.io "rename" w.path)
              ∧ (w.commit fs f).1.metadata w.temp_path = none)
      ∧ (f.flushFails = false → f.renameFails = false →
          (w.permissions = none ∨ f.setPermissionsFails = false) →
          w.path.isPrefixOf w.temp_path = false →
            (w.commit fs f).2 = .ok ()
              ∧ (w.commit fs f).1.metadata w.temp_path = none) := by
  refine ⟨?_, ?_, ?_, ?_⟩
  · intro hflush
    unfold AtomicWriter.commit
    rw [hflush]
    rfl
  · intro hflush hperm perms hsome
    unfold AtomicWriter.commit
    rw [hflush, hsome]
    simp only [Bool.false_eq_true, if_false, hperm, if_true]
    exact ⟨by simp, by simp [FS.metadata, FS.setEntry]⟩
  · intro hflush hrename hperm
    unfold AtomicWriter.commit
    rw [hflush]
    simp only [Bool.false_eq_true, if_false]
    rcases hperm with hnone | hsp
    · rw [hnone, hrename]
      simp only [if_true]
      exact ⟨by simp, by simp [FS.metadata, FS.removeEntry]⟩
    · rcases hp : w.permissions with _ | perms
      · rw [hrename]
        simp only [if_true]
        exact ⟨by simp, by simp [FS.metadata, FS.removeEntry]⟩
      · rw [hsp, hrename]
        simp only [Bool.false_eq_true, if_false, if_true]
        exact ⟨by simp, by simp [FS.metadata, FS.removeEntry]⟩
  · intro hflush hrename hperm hnp
    unfold AtomicWriter.commit
    rw [hflush]
    simp only [Bool.false_eq_true, if_false]
    have hnp2 : ¬(w.path <+: w.temp_path) := by
      rw [← List.isPrefixOf_iff_prefix, hnp]
      exact Bool.false_ne_true
    have hmeta : ∀ fs2 : FS, (fs2.rename w.temp_path w.path).metadata w.temp_path = none := by
      intro fs2
      simp [FS.rename, FS.metadata, List.isPrefixOf_iff_prefix, hnp2]
    rcases hp : w.permissions with _ | perms
    · rw [hrename]
      simp only [Bool.false_eq_true, if_false]
      exact ⟨by simp, hmeta _⟩
    · rcases hperm with hnone | hsp
      · rw [hp] at hnone
        cases hnone
      · rw [hsp, hrename]
        simp only [Bool.false_eq_true, if_false]
        exact ⟨by simp, hmeta _⟩

/-- Witness: the amended C3 at a concrete writer — a rename failure does
delete the temp file. -/
theorem commit_cleanup_witness :
    ((((AtomicWriter.create ⟨fun _ => none, 0⟩ (segs "a.txt") none).2.write_all "hi").commit
        (AtomicWriter.create ⟨fun _ => none, 0⟩ (segs "a.txt") none).1
        ⟨false, false, true⟩).2
      = .error (.io "rename" (segs "a.txt")))
    ∧ ((((AtomicWriter.create ⟨fun _ => none, 0⟩ (segs "a.txt") none).2.write_all "hi").commit
        (AtomicWriter.create ⟨fun _ => none, 0⟩ (segs "a.txt") none).1
        ⟨false, false, true⟩).1.metadata
          ((AtomicWriter.create ⟨fun _ => none, 0⟩ (segs "a.txt") none).2.write_all "hi").temp_path
      = none) :=
  (commit_cleanup_only_on_rename_failure
      ((AtomicWriter.create ⟨fun _ => none, 0⟩ (segs "a.txt") none).2.write_all "hi")
      (AtomicWriter.create ⟨fun _ => none, 0⟩ (segs "a.txt") none).1
      ⟨false, false, true⟩).2.2.1 rfl rfl (Or.inl rfl)

/-- C9: deleting an absent target succeeds with a "skipped" result,
changes nothing on disk, and records no undo entry in the journal (the
runner passes the journal through unchanged); deleting an existing target
snapshots it — renames it to the sibling temporary name — and records the
snapshot handle as the undo entry. -/
theorem delete_skips_absent_and_snapshots_present (fs : FS) (path : String) :
    (fs.metadata (segs path) = none →
      deleteApply fs path
          = (fs, .ok (.skipped ("File not found, skipped deletion: " ++ path)))
        ∧ ∀ (progress_total : Nat) (journal : List OperationState)
            (results : List String) (index : Nat) (rest : List PreparedOperation),
            executePlanGo applicatorModel progress_total fs journal results index
                (.delete path :: rest)
              = executePlanGo applicatorModel progress_total fs journal
                  (results ++ [progressAnnotate (index + 1) progress_total
                    ("File not found, skipped deletion: " ++ path)])
                  (index + 1) rest)
      ∧ (∀ e, fs.metadata (segs path) = some e →
          deleteApply fs path
              = ((fs.freshTemp (segs path)).1.rename (segs path) (fs.freshTemp (segs path)).2,
                  .ok (.applied
                    (.deletedFile (segs path)
                      ⟨(fs.freshTemp (segs path)).2, backupKindOf e⟩)
                    ("Deleted file: " ++ path)))
            ∧ ∀ (progress_total : Nat) (journal : List OperationState)
                (results : List String) (index : Nat) (rest : List PreparedOperation),
                executePlanGo applicatorModel progress_total fs journal results index
                    (.delete path :: rest)
                  = executePlanGo applicatorModel progress_total
                      ((fs.freshTemp (segs path)).1.rename (segs path)
                        (fs.freshTemp (segs path)).2)
                      (journal ++ [.deletedFile (segs path)
                        ⟨(fs.freshTemp (segs path)).2, backupKindOf e⟩])
                      (results ++ [progressAnnotate (index + 1) progress_total
                        ("Deleted file: " ++ path)])
                      (index + 1) rest) := by
  constructor
  · intro h
    have happ : deleteApply fs path
        = (fs, .ok (.skipped ("File not found, skipped deletion: " ++ path))) := by
      unfold deleteApply snapshot_for
      dsimp only
      rw [h]
    refine ⟨happ, ?_⟩
    intro progress_total journal results index rest
    conv_lhs => rw [executePlanGo]
    have hexec : applicatorModel.exec fs (.delete path)
        = (fs, .ok (.skipped ("File not found, skipped deletion: " ++ path))) := happ
    rw [hexec]
  · intro e h
    have happ : deleteApply fs path
        = ((fs.freshTemp (segs path)).1.rename (segs path) (fs.freshTemp (segs path)).2,
            .ok (.applied
              (.deletedFile (segs path)
                ⟨(fs.freshTemp (segs path)).2, backupKindOf e⟩)
              ("Deleted file: " ++ path))) := by
      unfold deleteApply snapshot_for
      dsimp only
      rw [h]
    refine ⟨happ, ?_⟩
    intro progress_total journal results index rest
    conv_lhs => rw [executePlanGo]
    have hexec : applicatorModel.exec fs (.delete path)
        = ((fs.freshTemp (segs path)).1.rename (segs path) (fs.freshTemp (segs path)).2,
            .ok (.applied
              (.deletedFile (segs path)
                ⟨(fs.freshTemp (segs path)).2, backupKindOf e⟩)
              ("Deleted file: " ++ path))) := happ
    rw [hexec]

/-- Witness: C9's skip branch applied to an empty workspace. -/
theorem delete_skip_witness :
    deleteApply ⟨fun _ => none, 0⟩ "missing.txt"
      = (⟨fun _ => none, 0⟩,
          .ok (.skipped ("File not found, skipped deletion: " ++ "missing.txt"))) :=
  ((delete_skips_absent_and_snapshots_present ⟨fun _ => none, 0⟩ "missing.txt").1 rfl).1

/-- Path splitting always yields at least one segment. -/
theorem segsAux_ne_nil : ∀ (l : List Char) (acc : String), segsAux l acc ≠ [] := by
  intro l
  induction l with
  | nil => intro acc; simp [segsAux]
  | cons ch rest ih =>
      intro acc
      simp only [segsAux]
      by_cases h : ch = '/'
      · rw [if_pos h]
        simp
      · rw [if_neg h]
        exact ih _

/-- `segs` never produces the empty path. -/
theorem segs_ne_nil (s : String) : segs s ≠ [] := segsAux_ne_nil _ _

/-- Ancestors are no longer than the path they are ancestors of. -/
theorem mem_ancestorPaths_length {q r : FsPath} (h : q ∈ ancestorPaths r) :
    q.length ≤ r.length := by
  simp only [ancestorPaths, List.mem_map, List.mem_range] at h
  obtain ⟨k, _, rfl⟩ := h
  simp [List.length_take]

/-- Pointwise effect of one `AddFile` apply followed by its own undo
(`AddedFile` → delete the target): the workspace differs from the
pre-apply state exactly by the created parent directories.  The two
freshness hypotheses say the target and its temp sibling are absent
(along with anything beneath those names), which the plan phase and the
temp-name scheme guarantee. -/
theorem addApply_rollback_pointwise (fs : FS) (p c : String)
    (hpreftarget : ∀ q : FsPath, segs p <+: q → fs.entry q = none)
    (hpreftemp : ∀ q : FsPath, (fs.freshTemp (segs p)).2 <+: q → fs.entry q = none) :
    (addApply fs p c).2 = .ok (.applied (.addedFile (segs p))
        ("Added file: " ++ p ++ " (" ++ toString c.utf8ByteSize ++ " bytes)"))
      ∧ ∀ q : FsPath,
          (stateRollback (addApply fs p c).1 (.addedFile (segs p))).1.metadata q
            = if q ∈ ancestorPaths (segs p).dropLast ∧ fs.metadata q = none
              then some Entry.dir
              else fs.metadata q := by
  have hTne : segs p ≠ [] := segs_ne_nil p
  have hTlen : (segs p).length = (segs p).dropLast.length + 1 := by
    rw [List.length_dropLast]
    have : 0 < (segs p).length := List.length_pos.2 hTne
    omega
  have hMdef : (fs.freshTemp (segs p)).2
      = (segs p).dropLast
          ++ ["." ++ ((segs p).getLast?).getD "vtcode-patch" ++ "."
              ++ toString fs.tempCounter ++ ".tmp"] := rfl
  have hMlen : ((fs.freshTemp (segs p)).2).length = (segs p).dropLast.length + 1 := by
    rw [hMdef, List.length_append, List.length_cons, List.length_nil]
  constructor
  · rfl
  · intro q
    have hLHS : (stateRollback (addApply fs p c).1 (.addedFile (segs p))).1.metadata q
        = if q = segs p then none
          else
            if (segs p).isPrefixOf q then
              (if (fs.freshTemp (segs p)).2 ++ q.drop (segs p).length
                  = (fs.freshTemp (segs p)).2
                then some (Entry.file ("" ++ c) newFilePerms)
                else
                  if ((fs.freshTemp (segs p)).2 ++ q.drop (segs p).length
                      = (fs.freshTemp (segs p)).2)
                  then some (Entry.file "" newFilePerms)
                  else
                    if (fs.freshTemp (segs p)).2 ++ q.drop (segs p).length
                          ∈ ancestorPaths (segs p).dropLast
                        ∧ fs.entry ((fs.freshTemp (segs p)).2 ++ q.drop (segs p).length)
                            = none
                    then some Entry.dir
                    else fs.entry ((fs.freshTemp (segs p)).2 ++ q.drop (segs p).length))
            else
              if (fs.freshTemp (segs p)).2.isPrefixOf q then none
              else
                if q = (fs.freshTemp (segs p)).2 then some (Entry.file ("" ++ c) newFilePerms)
                else
                  if q = (fs.freshTemp (segs p)).2 then some (Entry.file "" newFilePerms)
                  else
                    if q ∈ ancestorPaths (segs p).dropLast ∧ fs.entry q = none
                    then some Entry.dir
                    else fs.entry q := rfl
    rw [hLHS]
    by_cases h1 : segs p <+: q
    · have hb1 : (segs p).isPrefixOf q = true := List.isPrefixOf_iff_prefix.2 h1
      by_cases h2 : q = segs p
      · subst h2
        rw [if_pos rfl]
        have hanc : ¬(segs p ∈ ancestorPaths (segs p).dropLast
            ∧ fs.metadata (segs p) = none) := by
          rintro ⟨hmem, _⟩
          have := mem_ancestorPaths_length hmem
          omega
        rw [if_neg hanc]
        exact (hpreftarget (segs p) List.prefix_rfl).symm
      · obtain ⟨t, rfl⟩ := h1
        have ht : t ≠ [] := by
          intro h
          subst h
          simp at h2
        have htlen : 0 < t.length := List.length_pos.2 ht
        rw [if_neg h2, if_pos hb1, List.drop_left]
        have hx : (fs.freshTemp (segs p)).2 ++ t ≠ (fs.freshTemp (segs p)).2 := by
          intro h
          have := congrArg List.length h
          rw [List.length_append] at this
          omega
        rw [if_neg hx, if_neg hx]
        have hxanc : ¬((fs.freshTemp (segs p)).2 ++ t ∈ ancestorPaths (segs p).dropLast
            ∧ fs.entry ((fs.freshTemp (segs p)).2 ++ t) = none) := by
          rintro ⟨hmem, _⟩
          have := mem_ancestorPaths_length hmem
          rw [List.length_append] at this
          omega
        rw [if_neg hxanc]
        have hqanc : ¬(segs p ++ t ∈ ancestorPaths (segs p).dropLast
            ∧ fs.metadata (segs p ++ t) = none) := by
          rintro ⟨hmem, _⟩
          have := mem_ancestorPaths_length hmem
          rw [List.length_append] at this
          omega
        rw [if_neg hqanc]
        rw [hpreftemp _ ⟨t, rfl⟩]
        exact (hpreftarget _ ⟨t, rfl⟩).symm
    · have hb1 : (segs p).isPrefixOf q = false := by
        rcases hb : (segs p).isPrefixOf q with _ | _
        · rfl
        · exact absurd (List.isPrefixOf_iff_prefix.1 hb) h1
      have hq2 : q ≠ segs p := by
        intro h
        subst h
        exact h1 List.prefix_rfl
      rw [if_neg hq2, hb1]
      simp only [Bool.false_eq_true, if_false]
      by_cases h3 : (fs.freshTemp (segs p)).2 <+: q
      · have hb3 : ((fs.freshTemp (segs p)).2).isPrefixOf q = true :=
          List.isPrefixOf_iff_prefix.2 h3
        rw [hb3]
        simp only [if_true]
        have hqanc : ¬(q ∈ ancestorPaths (segs p).dropLast ∧ fs.metadata q = none) := by
          rintro ⟨hmem, _⟩
          have h5 := mem_ancestorPaths_length hmem
          have h6 := h3.length_le
          omega
        rw [if_neg hqanc]
        exact (hpreftemp q h3).symm
      · have hb3 : ((fs.freshTemp (segs p)).2).isPrefixOf q = false := by
          rcases hb : ((fs.freshTemp (segs p)).2).isPrefixOf q with _ | _
          · rfl
          · exact absurd (List.isPrefixOf_iff_prefix.1 hb) h3
        have hq3 : q ≠ (fs.freshTemp (segs p)).2 := by
          intro h
          subst h
          exact h3 List.prefix_rfl
        rw [hb3]
        simp only [Bool.false_eq_true, if_false]
        rw [if_neg hq3, if_neg hq3]
        rfl

/-- C10: in a batch whose `AddFile` target lies under missing parent
directories, `apply` creates the parents and writes the file; when a later
operation of the batch fails and the journal is rolled back, the recorded
undo deletes only the target file, so the final workspace equals the
pre-apply state except that the created parent directories remain.  The
failing follow-up operation here is an `UpdateFile` of an absent source;
the extra hypotheses say that source is absent and unrelated to the add's
target and temp names. -/
theorem add_rollback_leaves_created_dirs (fs : FS) (p c u : String)
    (hpreftarget : ∀ q : FsPath, segs p <+: q → fs.entry q = none)
    (hpreftemp : ∀ q : FsPath, (fs.freshTemp (segs p)).2 <+: q → fs.entry q = none)
    (hu : fs.entry (segs u) = none)
    (hu1 : ¬(segs p <+: segs u))
    (hu2 : ¬((fs.freshTemp (segs p)).2 <+: segs u)) :
    ∃ w : FS,
      execute_plan applicatorModel fs [.add p c, .update u none [] 420]
          = (w, .error (.missingFile u))
        ∧ ∀ q : FsPath,
            w.metadata q
              = if q ∈ ancestorPaths (segs p).dropLast ∧ fs.metadata q = none
                then some Entry.dir
                else fs.metadata q := by
  refine ⟨(stateRollback (addApply fs p c).1 (.addedFile (segs p))).1, ?_,
    (addApply_rollback_pointwise fs p c hpreftarget hpreftemp).2⟩
  have h1 : (addApply fs p c).2 = .ok (.applied (.addedFile (segs p))
      ("Added file: " ++ p ++ " (" ++ toString c.utf8ByteSize ++ " bytes)")) :=
    (addApply_rollback_pointwise fs p c hpreftarget hpreftemp).1
  have hexec1 : applicatorModel.exec fs (.add p c)
      = ((addApply fs p c).1, .ok (.applied (.addedFile (segs p))
        ("Added file: " ++ p ++ " (" ++ toString c.utf8ByteSize ++ " bytes)"))) := by
    show addApply fs p c = _
    rw [← h1]
  have hbu1 : (segs p).isPrefixOf (segs u) = false := by
    rcases hb : (segs p).isPrefixOf (segs u) with _ | _
    · rfl
    · exact absurd (List.isPrefixOf_iff_prefix.1 hb) hu1
  have hbu2 : ((fs.freshTemp (segs p)).2).isPrefixOf (segs u) = false := by
    rcases hb : ((fs.freshTemp (segs p)).2).isPrefixOf (segs u) with _ | _
    · rfl
    · exact absurd (List.isPrefixOf_iff_prefix.1 hb) hu2
  have hne_temp : segs u ≠ (fs.freshTemp (segs p)).2 := by
    intro h
    exact hu2 (h ▸ List.prefix_rfl)
  have hA : (addApply fs p c).1.metadata (segs u)
      = if (segs p).isPrefixOf (segs u) then
          (if (fs.freshTemp (segs p)).2 ++ (segs u).drop (segs p).length
              = (fs.freshTemp (segs p)).2
            then some (Entry.file ("" ++ c) newFilePerms)
            else
              if ((fs.freshTemp (segs p)).2 ++ (segs u).drop (segs p).length
                  = (fs.freshTemp (segs p)).2)
              then some (Entry.file "" newFilePerms)
              else
                if (fs.freshTemp (segs p)).2 ++ (segs u).drop (segs p).length
                      ∈ ancestorPaths (segs p).dropLast
                    ∧ fs.entry ((fs.freshTemp (segs p)).2 ++ (segs u).drop (segs p).length)
                        = none
                then some Entry.dir
                else fs.entry ((fs.freshTemp (segs p)).2 ++ (segs u).drop (segs p).length))
        else
          if (fs.freshTemp (segs p)).2.isPrefixOf (segs u) then none
          else
            if segs u = (fs.freshTemp (segs p)).2 then some (Entry.file ("" ++ c) newFilePerms)
            else
              if segs u = (fs.freshTemp (segs p)).2 then some (Entry.file "" newFilePerms)
              else
                if segs u ∈ ancestorPaths (segs p).dropLast ∧ fs.entry (segs u) = none
                then some Entry.dir
                else fs.entry (segs u) := rfl
  have hAu : (addApply fs p c).1.metadata (segs u)
      = if segs u ∈ ancestorPaths (segs p).dropLast ∧ fs.entry (segs u) = none
        then some Entry.dir
        else fs.entry (segs u) := by
    rw [hA, hbu1]
    simp only [Bool.false_eq_true, if_false]
    rw [hbu2]
    simp only [Bool.false_eq_true, if_false]
    rw [if_neg hne_temp, if_neg hne_temp]
  have hdisj : (addApply fs p c).1.metadata (segs u) = some Entry.dir
      ∨ (addApply fs p c).1.metadata (segs u) = none := by
    rw [hAu]
    by_cases hcond : segs u ∈ ancestorPaths (segs p).dropLast ∧ fs.entry (segs u) = none
    · rw [if_pos hcond]
      exact Or.inl rfl
    · rw [if_neg hcond]
      exact Or.inr hu
  have hupd : applicatorModel.exec (addApply fs p c).1 (.update u none [] 420)
      = ((addApply fs p c).1, .error (.missingFile u)) := by
    show updateApply (addApply fs p c).1 u none [] 420 = _
    unfold updateApply
    dsimp only
    rcases hdisj with hd | hd <;> rw [hd]
  unfold execute_plan
  rw [executePlanGo.eq_def]
  dsimp only
  rw [hexec1]
  dsimp only
  rw [executePlanGo.eq_def]
  dsimp only
  rw [hupd]
  rfl

/-- Witness: C10 on an empty workspace — adding `d/e/f.txt` then failing
to update an absent file rolls the batch back, reports the update's
error, and leaves the created directories behind. -/
theorem add_rollback_witness :
    ∃ w : FS,
      execute_plan applicatorModel ⟨fun _ => none, 0⟩
          [.add "d/e/f.txt" "data", .update "absent.txt" none [] 420]
          = (w, .error (.missingFile "absent.txt"))
        ∧ ∀ q : FsPath,
            w.metadata q
              = if q ∈ ancestorPaths (segs "d/e/f.txt").dropLast
                    ∧ (⟨fun _ => none, 0⟩ : FS).metadata q = none
                then some Entry.dir
                else (⟨fun _ => none, 0⟩ : FS).metadata q :=
  add_rollback_leaves_created_dirs ⟨fun _ => none, 0⟩ "d/e/f.txt" "data" "absent.txt"
    (fun _ _ => rfl) (fun _ _ => rfl) rfl
    (fun h => absurd (List.isPrefixOf_iff_prefix.2 h) (by decide))
    (fun h => absurd (List.isPrefixOf_iff_prefix.2 h) (by decide))
